import Mathlib

/-!
Verification of the SSHarbor connection-resolution and command-construction
core (src/core/security.ts, src/core/ssh.ts, src/types/index.ts).

Strings are modelled as `List Char` (`JStr`); JavaScript numbers are modelled
as `Option ℚ` (`none` = NaN; the code under verification only compares and
parses integers, so rationals are an exact model of every value that occurs).
Functions are translated one-for-one from the TypeScript source; regular
expressions are rendered as explicit scanners with the same backtracking
semantics.  Recursions that consume a non-structural amount of input use an
explicit fuel argument (always instantiated with the input length) so that
every definition evaluates by kernel reduction.
-/

namespace SSHarbor

/-- JavaScript string, modelled as a list of characters. -/
abbrev JStr := List Char

/-- JavaScript number, modelled as `Option ℚ` with `none` playing NaN. -/
abbrev JSNum := Option ℚ

/-! ### Character classes used by the regexes in the source -/

/-- ASCII lower-case letter, `[a-z]`. -/
def isLowerCh (c : Char) : Bool := 'a' ≤ c && c ≤ 'z'

/-- ASCII upper-case letter, `[A-Z]`. -/
def isUpperCh (c : Char) : Bool := 'A' ≤ c && c ≤ 'Z'

/-- ASCII digit, `[0-9]`. -/
def isDigitCh (c : Char) : Bool := '0' ≤ c && c ≤ '9'

/-- `[a-zA-Z0-9]`. -/
def isAlphaNumCh (c : Char) : Bool := isLowerCh c || isUpperCh c || isDigitCh c

/-- Characters treated as whitespace by JavaScript `trim`/`parseInt`
(ASCII fragment; the exotic Unicode spaces never occur in this code base). -/
def isJsSpace (c : Char) : Bool :=
  c = ' ' || c = '\t' || c = '\n' || c = '\r' || c = '\x0b' || c = '\x0c'

/-! ### Generic JavaScript string helpers -/

/-- `String.prototype.trim`. -/
def jsTrim (s : JStr) : JStr :=
  ((s.dropWhile isJsSpace).reverse.dropWhile isJsSpace).reverse

/-- `String.prototype.trimEnd`. -/
def jsTrimEnd (s : JStr) : JStr :=
  (s.reverse.dropWhile isJsSpace).reverse

/-- Value of a string of decimal digits (most significant first). -/
def digitsVal (l : JStr) : ℕ :=
  l.foldl (fun a c => a * 10 + (c.toNat - 48)) 0

/-- `parseInt(s, 10)`: skip leading whitespace, an optional sign, then the
longest prefix of decimal digits; `none` (NaN) when that prefix is empty. -/
def parseIntTen (s : JStr) : Option ℤ :=
  let digitsPart : JStr → Option ℕ := fun u =>
    let ds := u.takeWhile isDigitCh
    if ds.isEmpty then none else some (digitsVal ds)
  match s.dropWhile isJsSpace with
  | [] => none
  | c :: rest =>
    if c = '-' then (digitsPart rest).map (fun n => -(n : ℤ))
    else if c = '+' then (digitsPart rest).map (fun n => (n : ℤ))
    else (digitsPart (c :: rest)).map (fun n => (n : ℤ))

/-- Decimal rendering of a natural number (fuel-driven so that it evaluates
by kernel reduction); `natToChars` below instantiates the fuel. -/
def natToCharsAux : ℕ → ℕ → JStr
  | 0, _ => []
  | f + 1, n =>
    if n < 10 then [Char.ofNat (48 + n)]
    else natToCharsAux f (n / 10) ++ [Char.ofNat (48 + n % 10)]

/-- JavaScript `String(n)` for a non-negative integer `n`. -/
def natToChars (n : ℕ) : JStr := natToCharsAux (n + 1) n

/-- `haystack.includes(pat)`: `pat` occurs as a contiguous substring. -/
def containsSub (pat : JStr) : JStr → Bool
  | [] => pat.isEmpty
  | c :: rest => pat.isPrefixOf (c :: rest) || containsSub pat rest

/-- ECMAScript `GetSubstitution` for a string `replace` with a string
pattern: in the replacement text, `$$` yields `$`, `$&` the matched text,
`$` + backtick (`Char.ofNat 96`) the part of the subject before the match,
`$` + apostrophe (`Char.ofNat 39`) the part after it; any other `$` —
including `$n`, as a string pattern has no capture groups — is passed
through literally. -/
def getSubst (matched before after : JStr) : JStr → JStr
  | [] => []
  | [c] => [c]
  | c :: c2 :: rest2 =>
    if c = '$' then
      if c2 = '$' then '$' :: getSubst matched before after rest2
      else if c2 = '&' then matched ++ getSubst matched before after rest2
      else if c2 = Char.ofNat 96 then before ++ getSubst matched before after rest2
      else if c2 = Char.ofNat 39 then after ++ getSubst matched before after rest2
      else '$' :: getSubst matched before after (c2 :: rest2)
    else c :: getSubst matched before after (c2 :: rest2)

/-- `s.replace(pat, repl)` for a plain-text pattern and a string
replacement: find the first occurrence of `pat`, apply `GetSubstitution`
to `repl` there, keep the rest (the string is returned unchanged when
`pat` is absent).  `acc` holds the already-scanned prefix in reverse. -/
def replaceFirstSubstAux (pat repl : JStr) : JStr → JStr → JStr
  | acc, [] =>
    if pat.isEmpty then acc.reverse ++ getSubst pat acc.reverse [] repl
    else acc.reverse
  | acc, c :: rest =>
    if pat.isPrefixOf (c :: rest) then
      acc.reverse ++ getSubst pat acc.reverse ((c :: rest).drop pat.length) repl
        ++ (c :: rest).drop pat.length
    else replaceFirstSubstAux pat repl (c :: acc) rest

/-- `s.replace(pat, repl)` with a plain-text pattern, ECMAScript
substitution applied to the string replacement. -/
def replaceFirstSubst (pat repl s : JStr) : JStr :=
  replaceFirstSubstAux pat repl [] s

/-- Split a string at every occurrence of the character `sep`
(JavaScript `s.split(sep)`): always returns at least one piece. -/
def splitOnChar (sep : Char) : JStr → List JStr
  | [] => [[]]
  | c :: rest =>
    if c = sep then [] :: splitOnChar sep rest
    else
      match splitOnChar sep rest with
      | [] => [[c]]
      | l :: ls => (c :: l) :: ls

/-- Split at the first occurrence of `sep`: `some (before, after)`,
or `none` when `sep` does not occur. -/
def splitFirst (sep : Char) : JStr → Option (JStr × JStr)
  | [] => none
  | c :: rest =>
    if c = sep then some ([], rest)
    else (splitFirst sep rest).map (fun p => (c :: p.1, p.2))

/-! ### src/core/security.ts -/

/-- `isValidHost`: `/^[a-zA-Z0-9][a-zA-Z0-9.-]*[a-zA-Z0-9]$|^[a-zA-Z0-9]$/`
(the empty string is already rejected by the `!host` guard). -/
def isValidHost (host : JStr) : Bool :=
  match host with
  | [] => false
  | [c] => isAlphaNumCh c
  | c :: d :: rest =>
    isAlphaNumCh c &&
    isAlphaNumCh ((d :: rest).getLast (by simp)) &&
    (d :: rest).dropLast.all (fun e => isAlphaNumCh e || e = '.' || e = '-')

/-- `isValidUser`: `/^[a-zA-Z_][a-zA-Z0-9_-]*$/`. -/
def isValidUser (user : JStr) : Bool :=
  match user with
  | [] => false
  | c :: rest =>
    (isLowerCh c || isUpperCh c || c = '_') &&
    rest.all (fun d => isAlphaNumCh d || d = '_' || d = '-')

/-- `isValidPort(port: number | string)`: coerce a string with
`parseInt(·, 10)`, then `!isNaN(p) && p > 0 && p <= 65535`. -/
def isValidPort (port : JSNum ⊕ JStr) : Bool :=
  let p : JSNum :=
    match port with
    | .inl n => n
    | .inr s => (parseIntTen s).map (fun z => (z : ℚ))
  match p with
  | none => false
  | some q => decide (0 < q) && decide (q ≤ 65535)

/-! POSIX path handling (`path.resolve`, `path.join`), modelled for absolute
inputs — the only case these functions are reached with, since the validated
path starts with `/` or with `~` expanded to the (absolute) home directory. -/

/-- A normalised path segment: non-empty, not `.` or `..`, no slash. -/
def goodSeg (s : JStr) : Prop :=
  s ≠ [] ∧ s ≠ ['.'] ∧ s ≠ ['.', '.'] ∧ '/' ∉ s

instance (s : JStr) : Decidable (goodSeg s) := by
  unfold goodSeg
  infer_instance

/-- Segments kept (not dissolved) by POSIX normalisation of a
traversal-free path: the non-empty, non-`.` ones. -/
def keepSeg (s : JStr) : Bool := !(decide (s = []) || decide (s = ['.']))

/-- Segment-wise normalisation step of POSIX path resolution:
empty and `.` segments vanish, `..` pops, anything else is kept. -/
def normStep (acc : List JStr) (seg : JStr) : List JStr :=
  if seg = [] || seg = ['.'] then acc
  else if seg = ['.', '.'] then acc.dropLast
  else acc ++ [seg]

/-- Join path segments with `/` separators. -/
def joinSegs : List JStr → JStr
  | [] => []
  | [s] => s
  | s :: rest => s ++ '/' :: joinSegs rest

/-- `path.resolve(p)` for an absolute POSIX path `p`. -/
def pathResolveAbs (p : JStr) : JStr :=
  '/' :: joinSegs ((splitOnChar '/' p).foldl normStep [])

/-- `path.join(a, b)` for an absolute `a`. -/
def pathJoinAbs (a b : JStr) : JStr := pathResolveAbs (a ++ '/' :: b)

/-- `isValidIdentityFile`, with `os.homedir()` passed explicitly.
Checks, in source order: the character whitelist (first character `~` or
slash, the rest letters, digits, dot, underscore, slash or hyphen), then
(after `~`-expansion and resolution)
containment in `~/.ssh` or in the home directory together with a safe
prefix pattern; any path containing `..` is rejected just before the
final containment test. -/
def identityWhitelist (p : JStr) : Bool :=
  match p with
  | [] => false
  | c :: rest =>
    (c = '~' || c = '/') &&
    rest.all (fun d => isAlphaNumCh d || d = '.' || d = '_' || d = '/' || d = '-')

/-- `isValidIdentityFile`, with `os.homedir()` passed explicitly.
Checks, in source order: the character whitelist (`identityWhitelist`
above), then (after `~`-expansion and resolution) containment in `~/.ssh`
or in the home directory together with a safe prefix pattern; any path
containing `..` is rejected just before the final containment test. -/
def isValidIdentityFile (homeDir filePath : JStr) : Bool :=
  if filePath.isEmpty then false
  else if !identityWhitelist filePath then false
  else
    let expandedPath :=
      if filePath.head? = some '~' then homeDir ++ filePath.tail else filePath
    let resolvedPath := pathResolveAbs expandedPath
    let sshDir := pathJoinAbs homeDir ".ssh".data
    let isInSshDir :=
      (sshDir ++ ['/']).isPrefixOf resolvedPath || resolvedPath = sshDir
    let isInHomeDir := (homeDir ++ ['/']).isPrefixOf resolvedPath
    let isSafePattern :=
      "~/.ssh/".data.isPrefixOf filePath ||
      "/home/".data.isPrefixOf filePath ||
      "/Users/".data.isPrefixOf filePath
    if containsSub ['.', '.'] filePath then false
    else isInSshDir || (isInHomeDir && isSafePattern)

/-- `sanitize`: strip the shell metacharacters
`; & | ` $ ( ) { } [ ] < > \ ' " ! # \n \r`. -/
def sanitize (input : JStr) : JStr :=
  input.filter (fun c =>
    !(c = ';' || c = '&' || c = '|' || c = '`' || c = '$' || c = '(' || c = ')' ||
      c = '\x7b' || c = '\x7d' || c = '[' || c = ']' || c = '<' || c = '>' ||
      c = '\\' || c = Char.ofNat 39 || c = '"' || c = '!' || c = '#' || c = '\n' || c = '\r'))

/-- `ValidationResult`. -/
inductive ValidationResult
  | valid : ValidationResult
  | invalid (error : JStr) : ValidationResult
  deriving DecidableEq, Repr

/-- `SSHConnectionInfo` (src/types/index.ts). -/
structure SSHConnectionInfo where
  name : JStr
  host : JStr
  user : JStr
  port : ℕ
  identityFile : Option JStr := none
  shell : JStr
  fleetName : JStr
  favorite : Bool := false
  tags : List JStr := []
  deriving DecidableEq, Repr

/-- `validateConnectionInfo`: the four scalar validators in source order;
the identity file is only checked when present and non-empty (JavaScript
truthiness of `info.identityFile`). -/
def validateConnectionInfo (homeDir : JStr) (info : SSHConnectionInfo) :
    ValidationResult :=
  if !isValidHost info.host then
    .invalid ("Invalid host: ".data ++ info.host)
  else if !isValidUser info.user then
    .invalid ("Invalid user: ".data ++ info.user)
  else if !isValidPort (.inl (some (info.port : ℚ))) then
    .invalid ("Invalid port: ".data ++ natToChars info.port)
  else
    match info.identityFile with
    | some f =>
      if !f.isEmpty && !isValidIdentityFile homeDir f then
        .invalid ("Invalid identity file path: ".data ++ f)
      else .valid
    | none => .valid

/-- `QuickConnectParsed`. -/
structure QuickConnectParsed where
  user : Option JStr
  host : JStr
  port : Option ℕ
  deriving DecidableEq, Repr

/-- The `([^:]+)(?::(\d+))?$` tail of the quick-connect regex applied to `r`:
the host is everything up to the first `:`; when a `:` is present the rest
must be one or more digits reaching the end of the string. -/
def matchHostPort (r : JStr) : Option (JStr × Option JStr) :=
  if r.isEmpty then none
  else
    match splitFirst ':' r with
    | none => some (r, none)
    | some (h, p) =>
      if h.isEmpty then none
      else if !p.isEmpty && p.all isDigitCh then some (h, some p)
      else none

/-- Full match of `/^(?:([^@]+)@)?([^:]+)(?::(\d+))?$/` against `t`:
the greedy optional user group (everything before the first `@`, when
non-empty) is tried first; if the remainder fails to match, the regex
backtracks to the variant without a user group. -/
def quickConnectMatch (t : JStr) : Option (Option JStr × JStr × Option JStr) :=
  let fallback := (matchHostPort t).map (fun hp => ((none : Option JStr), hp.1, hp.2))
  match splitFirst '@' t with
  | none => fallback
  | some (u, rest) =>
    if u.isEmpty then fallback
    else
      match matchHostPort rest with
      | some (h, p) => some (some u, h, p)
      | none => fallback

/-- `parseQuickConnect`: sanitize the trimmed input, match the pattern,
validate every extracted part, `none` on any failure. -/
def parseQuickConnect (input : JStr) : Option QuickConnectParsed :=
  let trimmed := sanitize (jsTrim input)
  if trimmed.isEmpty then none
  else
    match quickConnectMatch trimmed with
    | none => none
    | some (user, host, portStr) =>
      if !isValidHost host then none
      else if (match user with | some u => !isValidUser u | none => false) then none
      else
        -- `parseInt(portStr, 10)` of an all-digit match is its decimal value
        let port : Option ℕ := portStr.map digitsVal
        match port with
        | some p =>
          if !isValidPort (.inl (some (p : ℚ))) then none
          else some ⟨user, host, some p⟩
        | none => some ⟨user, host, none⟩

/-! ### src/core/ssh.ts -/

/-- `expandPath`: replace a leading `~` by the home directory. -/
def expandPath (homeDir p : JStr) : JStr :=
  match p with
  | '~' :: rest => homeDir ++ rest
  | _ => p

/-- `parts.join(' ')`. -/
def joinSpace (parts : List JStr) : JStr := List.intercalate [' '] parts

/-- `buildSSHCommand`, with `os.homedir()` and `fs.existsSync` passed
explicitly; a thrown `Error` is modelled as `Except.error` carrying the
message.  Token order: `ssh`, `-i <expanded key>` when the identity file is
set (truthy) and exists on disk, `-p <port>` when the port is not 22, then
`user@host`. -/
def buildSSHCommand (homeDir : JStr) (fsExists : JStr → Bool)
    (info : SSHConnectionInfo) : Except JStr JStr :=
  match validateConnectionInfo homeDir info with
  | .invalid e => .error e
  | .valid =>
    let identityParts : List JStr :=
      match info.identityFile with
      | some f =>
        if f.isEmpty then []
        else
          let keyPath := expandPath homeDir f
          if fsExists keyPath then ["-i".data, keyPath]
          else []  -- console.warn only; the flag is silently omitted
      | none => []
    let portParts : List JStr :=
      if info.port ≠ 22 then ["-p".data, natToChars info.port] else []
    .ok (joinSpace (["ssh".data] ++ identityParts ++ portParts ++
      [info.user ++ '@' :: info.host]))

/-- `buildSSHCommandDisplay`: same token order, no validation, no
existence check, the identity file kept unexpanded. -/
def buildSSHCommandDisplay (info : SSHConnectionInfo) : JStr :=
  let identityParts : List JStr :=
    match info.identityFile with
    | some f => if f.isEmpty then [] else ["-i".data, f]
    | none => []
  let portParts : List JStr :=
    if info.port ≠ 22 then ["-p".data, natToChars info.port] else []
  joinSpace (["ssh".data] ++ identityParts ++ portParts ++
    [info.user ++ '@' :: info.host])

/-- The argument record of `buildConnectionId`/`parseConnectionId`. -/
structure ConnectionId where
  host : JStr
  user : JStr
  port : ℕ
  deriving DecidableEq, Repr

/-- `buildConnectionId`: the template literal `user@host:port`. -/
def buildConnectionId (info : ConnectionId) : JStr :=
  info.user ++ '@' :: (info.host ++ ':' :: natToChars info.port)

/-- `parseConnectionId`: match `/^([^@]+)@([^:]+):(\d+)$/` — user up to the
first `@`, host up to the following first `:`, then digits to the end —
and `parseInt` the digits (their decimal value). -/
def parseConnectionId (id : JStr) : Option ConnectionId :=
  match splitFirst '@' id with
  | none => none
  | some (user, rest) =>
    if user.isEmpty then none
    else
      match splitFirst ':' rest with
      | none => none
      | some (host, portStr) =>
        if host.isEmpty then none
        else if portStr.isEmpty || !portStr.all isDigitCh then none
        else some ⟨host, user, digitsVal portStr⟩

/-- `.replace(/[^a-zA-Z0-9]/g, '_')`: every character outside `[a-zA-Z0-9]`
becomes `_` (each match of the class is a single character). -/
def aliasClean (s : JStr) : JStr :=
  s.map (fun c => if isAlphaNumCh c then c else '_')

/-- `generateSSHConfigAlias`: `SSHarbor_<fleet>_<vessel>` with every
non-alphanumeric character of each segment replaced by `_`. -/
def generateSSHConfigAlias (info : SSHConnectionInfo) : JStr :=
  "SSHarbor_".data ++ aliasClean info.fleetName ++ '_' :: aliasClean info.name

/-! #### The text transformation inside `ensureSSHConfigEntry`

`ensureSSHConfigEntry` reads `~/.ssh/config`, rewrites it, writes it back and
returns the alias.  The pure text transformation (everything between the read
and the write) is modelled here; the regex
`\n?Host <alias>\n(?:  [^\n]+\n)*` (global) is rendered as a left-to-right
scanner with the same greedy semantics. -/

/-- The managed-region marker comment. -/
def sshMarker : JStr := "# === SSHarbor Managed Entries ===".data

/-- The `Host <alias>` line. -/
def hostLine (al : JStr) : JStr := "Host ".data ++ al

/-- `entryLines` of `ensureSSHConfigEntry` (before the final `push('')`). -/
def entryLines (info : SSHConnectionInfo) : List JStr :=
  ["Host ".data ++ generateSSHConfigAlias info,
   "  HostName ".data ++ info.host,
   "  User ".data ++ info.user] ++
  (if info.port ≠ 22 then ["  Port ".data ++ natToChars info.port] else []) ++
  (match info.identityFile with
   | some f => if f.isEmpty then [] else ["  IdentityFile ".data ++ f]
   | none => [])

/-- Join lines with newline separators (JavaScript `lines.join('\n')`). -/
def joinNL : List JStr → JStr
  | [] => []
  | [s] => s
  | s :: rest => s ++ '\n' :: joinNL rest

/-- `newEntry = [...entryLines, ''].join('\n')`. -/
def newEntryText (info : SSHConnectionInfo) : JStr :=
  joinNL (entryLines info ++ [[]])

/-- Canonical form of a block of newline-terminated lines. -/
def linesJoin (ls : List JStr) : JStr :=
  ls.foldr (fun l acc => l ++ '\n' :: acc) []

/-- One step of `(?:  [^\n]+\n)` — two spaces, one or more non-newline
characters, a newline; returns the rest after the consumed line. -/
def indentedLineStep (s : JStr) : Option JStr :=
  match s with
  | ' ' :: ' ' :: rest =>
    if (rest.takeWhile (fun c => c ≠ '\n')).isEmpty then none
    else
      match rest.dropWhile (fun c => c ≠ '\n') with
      | '\n' :: r => some r
      | _ => none
  | _ => none

/-- Greedy `(?:  [^\n]+\n)*`, fuel-driven. -/
def indentedStarAux : ℕ → JStr → JStr
  | 0, s => s
  | f + 1, s =>
    match indentedLineStep s with
    | some r => indentedStarAux f r
    | none => s

/-- Greedy `(?:  [^\n]+\n)*`: consume as many indented lines as possible. -/
def indentedStar (s : JStr) : JStr := indentedStarAux s.length s

/-- Match `Host <alias>\n(?:  [^\n]+\n)*` at the start of `s`;
returns the rest after the whole match. -/
def stanzaMatch (al s : JStr) : Option JStr :=
  if (hostLine al ++ ['\n']).isPrefixOf s then
    some (indentedStar (s.drop (hostLine al ++ ['\n']).length))
  else none

/-- Match `\n?Host <alias>\n(?:  [^\n]+\n)*` at the start of `s`
(greedy optional leading newline, with regex backtracking: the variant
without the newline is tried when the one with it fails). -/
def tryStanza (al s : JStr) : Option JStr :=
  match s with
  | '\n' :: rest =>
    match stanzaMatch al rest with
    | some r => some r
    | none => stanzaMatch al s
  | _ => stanzaMatch al s

/-- `existingConfig.replace(removeRegex, '')` — delete every match of
`\n?Host <alias>\n(?:  [^\n]+\n)*`, scanning left to right (fuel-driven). -/
def removeStanzasAux (al : JStr) : ℕ → JStr → JStr
  | 0, s => s
  | _ + 1, [] => []
  | f + 1, c :: cs =>
    match tryStanza al (c :: cs) with
    | some r => removeStanzasAux al f r
    | none => c :: removeStanzasAux al f cs

/-- Delete every match of `\n?Host <alias>\n(?:  [^\n]+\n)*`. -/
def removeStanzas (al s : JStr) : JStr := removeStanzasAux al s.length s

/-- The stanza-removal stage of `ensureSSHConfigEntry`: when a line
`Host <alias>` exists (`/^Host <alias>$/m`), delete every match of the
removal regex. -/
def removeOldStanza (al cfg : JStr) : JStr :=
  if (splitOnChar '\n' cfg).contains (hostLine al) then removeStanzas al cfg
  else cfg

/-- The insertion stage of `ensureSSHConfigEntry`:
`existingConfig.replace(marker, marker + newline + newEntry)` — insert the
new entry directly after the marker, with ECMAScript `$`-substitution
applied to the replacement string — appending the marker to the
right-trimmed text when the marker is absent. -/
def insertEntry (newEntry cfg : JStr) : JStr :=
  if containsSub sshMarker cfg then
    replaceFirstSubst sshMarker (sshMarker ++ '\n' :: newEntry) cfg
  else
    jsTrimEnd cfg ++ '\n' :: '\n' :: (sshMarker ++ '\n' :: newEntry)

/-- The two stages combined, for a given alias and rendered entry. -/
def upsertConfig (al newEntry cfg : JStr) : JStr :=
  insertEntry newEntry (removeOldStanza al cfg)

/-- The pure text transformation of `ensureSSHConfigEntry`:
`existingConfig ↦ updatedConfig` (the returned alias is
`generateSSHConfigAlias info`). -/
def ensureSSHConfigText (info : SSHConnectionInfo) (existingConfig : JStr) : JStr :=
  upsertConfig (generateSSHConfigAlias info) (newEntryText info) existingConfig

/-! ### The defaults cascade of `VesselItem` (src/types/index.ts) -/

/-- `Vessel`. -/
structure Vessel where
  name : JStr
  host : JStr
  user : Option JStr := none
  port : Option ℕ := none
  identityFile : Option JStr := none
  shell : Option JStr := none
  tags : Option (List JStr) := none
  favorite : Option Bool := none
  notes : Option JStr := none
  deriving Repr

/-- `FleetDefaults`. -/
structure FleetDefaults where
  user : Option JStr := none
  port : Option ℕ := none
  identityFile : Option JStr := none
  shell : Option JStr := none
  deriving Repr

/-- `Fleet` (vessels carried but irrelevant to resolution). -/
structure Fleet where
  name : JStr
  icon : Option JStr := none
  color : Option JStr := none
  collapsed : Option Bool := none
  defaults : Option FleetDefaults := none
  vessels : List Vessel := []
  deriving Repr

/-- `HarborDefaults`. -/
structure HarborDefaults where
  shell : Option JStr := none
  user : Option JStr := none
  port : Option ℕ := none
  identityFile : Option JStr := none
  deriving Repr

/-- `SSHarborSettings`. -/
structure SSHarborSettings where
  defaultShell : JStr
  defaultUser : JStr
  defaultPort : ℕ
  showRecentConnections : Bool := true
  maxRecentConnections : ℕ := 10
  deriving Repr

/-- JavaScript `a || b` for an optional string `a` and string `b`
(`undefined` and the empty string are falsy). -/
def jsOrStr (a : Option JStr) (b : JStr) : JStr :=
  match a with
  | some s => if s.isEmpty then b else s
  | none => b

/-- JavaScript `a || b` for two optional strings. -/
def jsOrStrOpt (a b : Option JStr) : Option JStr :=
  match a with
  | some s => if s.isEmpty then b else some s
  | none => b

/-- JavaScript `a || b` for an optional number `a` and number `b`
(`undefined` and `0` are falsy). -/
def jsOrNat (a : Option ℕ) (b : ℕ) : ℕ :=
  match a with
  | some n => if n = 0 then b else n
  | none => b

/-- The resolution performed by the `VesselItem` constructor:
`vessel.user || fleet.defaults?.user || harborDefaults.user ||
settings.defaultUser` and its three siblings, plus the literal field
assembly of `this.connectionInfo`. -/
def resolveConnectionInfo (vessel : Vessel) (fleet : Fleet)
    (harborDefaults : HarborDefaults) (settings : SSHarborSettings) :
    SSHConnectionInfo :=
  let user := jsOrStr vessel.user (jsOrStr (fleet.defaults.bind (·.user))
      (jsOrStr harborDefaults.user settings.defaultUser))
  let port := jsOrNat vessel.port (jsOrNat (fleet.defaults.bind (·.port))
      (jsOrNat harborDefaults.port settings.defaultPort))
  let identityFile := jsOrStrOpt vessel.identityFile
      (jsOrStrOpt (fleet.defaults.bind (·.identityFile)) harborDefaults.identityFile)
  let shell := jsOrStr vessel.shell (jsOrStr (fleet.defaults.bind (·.shell))
      (jsOrStr harborDefaults.shell settings.defaultShell))
  { name := if vessel.name.isEmpty then vessel.host else vessel.name
    host := vessel.host
    user := user
    port := port
    identityFile := identityFile
    shell := shell
    fleetName := fleet.name
    favorite := vessel.favorite.getD false
    tags := vessel.tags.getD [] }

/-! ### Spec-side definitions, used to compare code behaviour against the
specification's own wording -/

/-- The spec's `aliasFor(fleetName, vesselName, prefix)` contract, written
from its words: replace, independently in each segment, every character
outside `[A-Za-z0-9]` with `_`, then join as `<prefix>_<fleet>_<vessel>`. -/
def specAliasFor (fleetName vesselName prefixSeg : JStr) : JStr :=
  prefixSeg ++ '_' :: aliasClean fleetName ++ '_' :: aliasClean vesselName

/-- The spec's resolution rule for string fields: scan the chain in priority
order and return the first value that is present and non-empty. -/
def firstNonEmptyStr (chain : List (Option JStr)) : Option JStr :=
  chain.findSome? (fun o => o.bind (fun s => if s.isEmpty then none else some s))

/-- The spec's resolution rule for the port: scan the chain in priority order
and return the first value that is present and non-zero (falsy numerics are
treated as absent). -/
def firstNonZeroPort (chain : List (Option ℕ)) : Option ℕ :=
  chain.findSome? (fun o => o.bind (fun n => if n = 0 then none else some n))

/-- A minimal concrete connection for exercising the config-upsert
transformation. -/
def c2Info : SSHConnectionInfo :=
  { name := "V".data, host := "h".data, user := "u".data, port := 22,
    identityFile := none, shell := [], fleetName := "F".data }

/-! ## Theorems -/

/-! ### Decimal rendering and parsing -/

/-- A rendered decimal digit is a digit character. -/
theorem isDigitCh_ofNat {d : ℕ} (h : d < 10) :
    isDigitCh (Char.ofNat (48 + d)) = true := by
  interval_cases d <;> decide

/-- Numeric value of a rendered decimal digit. -/
theorem toNat_ofNat_digit {d : ℕ} (h : d < 10) :
    (Char.ofNat (48 + d)).toNat - 48 = d := by
  interval_cases d <;> decide

/-- `digitsVal` over an appended digit. -/
theorem digitsVal_append_singleton (l : JStr) (c : Char) :
    digitsVal (l ++ [c]) = digitsVal l * 10 + (c.toNat - 48) := by
  simp [digitsVal, List.foldl_append]

/-- The fuelled decimal renderer, below its fuel bound: all digits,
non-empty, and parsing back gives the value. -/
theorem natToCharsAux_spec :
    ∀ f n : ℕ, n < 10 ^ (f + 1) →
      (natToCharsAux (f + 1) n).all isDigitCh = true ∧
      natToCharsAux (f + 1) n ≠ [] ∧
      digitsVal (natToCharsAux (f + 1) n) = n := by
  intro f
  induction f with
  | zero =>
    intro n hn
    have h10 : n < 10 := by simpa using hn
    simp [natToCharsAux, h10, isDigitCh_ofNat h10, digitsVal,
      toNat_ofNat_digit h10]
  | succ f ih =>
    intro n hn
    by_cases h10 : n < 10
    · simp [natToCharsAux, h10, isDigitCh_ofNat h10, digitsVal,
        toNat_ofNat_digit h10]
    · have hdiv : n / 10 < 10 ^ (f + 1) := by
        rw [Nat.div_lt_iff_lt_mul (by norm_num)]
        calc n < 10 ^ (f + 1 + 1) := hn
        _ = 10 ^ (f + 1) * 10 := by ring
      obtain ⟨hall, hne, hval⟩ := ih (n / 10) hdiv
      have hmod : n % 10 < 10 := Nat.mod_lt _ (by norm_num)
      have hstep : natToCharsAux (f + 1 + 1) n =
          natToCharsAux (f + 1) (n / 10) ++ [Char.ofNat (48 + n % 10)] := by
        show (if n < 10 then [Char.ofNat (48 + n)]
          else natToCharsAux (f + 1) (n / 10) ++ [Char.ofNat (48 + n % 10)]) = _
        rw [if_neg h10]
      rw [hstep]
      refine ⟨?_, ?_, ?_⟩
      · simp only [List.all_append, hall, Bool.true_and, List.all_cons,
          List.all_nil, Bool.and_true, isDigitCh_ofNat hmod]
      · simp
      · rw [digitsVal_append_singleton, hval, toNat_ofNat_digit hmod]
        omega

/-- `natToChars n` is a non-empty string of decimal digits whose value is
`n`. -/
theorem natToChars_spec (n : ℕ) :
    (natToChars n).all isDigitCh = true ∧ natToChars n ≠ [] ∧
      digitsVal (natToChars n) = n := by
  have hb : n < 10 ^ (n + 1) := by
    calc n < 10 ^ n := Nat.lt_pow_self (by norm_num) n
    _ ≤ 10 ^ (n + 1) := Nat.pow_le_pow_right (by norm_num) (Nat.le_succ n)
  exact natToCharsAux_spec n n hb

/-- On a digit character every special-character test used by the parsers
fails. -/
theorem isDigitCh_ne {c : Char} (h : isDigitCh c = true) :
    isJsSpace c = false ∧ c ≠ '-' ∧ c ≠ '+' ∧ c ≠ '@' ∧ c ≠ ':' ∧ c ≠ '\n' := by
  refine ⟨?_, ?_, ?_, ?_, ?_, ?_⟩
  · cases hsp : isJsSpace c
    · rfl
    · exfalso
      simp only [isJsSpace, Bool.or_eq_true, decide_eq_true_eq] at hsp
      rcases hsp with ((((h' | h') | h') | h') | h') | h' <;> subst h' <;>
        exact absurd h (by decide)
  all_goals intro he; subst he; exact absurd h (by decide)

/-- `parseInt(·, 10)` inverts decimal rendering. -/
theorem parseIntTen_natToChars (n : ℕ) :
    parseIntTen (natToChars n) = some (n : ℤ) := by
  obtain ⟨hall, hne, hval⟩ := natToChars_spec n
  obtain ⟨c, cs, hcc⟩ : ∃ c cs, natToChars n = c :: cs := by
    cases h : natToChars n with
    | nil => exact absurd h hne
    | cons c cs => exact ⟨c, cs, rfl⟩
  have hcd : isDigitCh c = true := by
    have := List.all_eq_true.mp hall c
    simp [hcc] at this ⊢
    exact this
  obtain ⟨hsp, hminus, hplus, -, -, -⟩ := isDigitCh_ne hcd
  have hdrop : (natToChars n).dropWhile isJsSpace = c :: cs := by
    rw [hcc, List.dropWhile_cons, hsp]
    simp
  have htake : (c :: cs).takeWhile isDigitCh = c :: cs := by
    rw [← hcc]
    exact List.takeWhile_eq_self_iff.mpr (fun x hx => List.all_eq_true.mp hall x hx)
  simp only [parseIntTen, hdrop]
  rw [if_neg hminus, if_neg hplus]
  simp only [htake]
  rw [← hcc]
  simp [hne, hval, List.isEmpty_iff]

/-- Unfolding of `validateConnectionInfo ... = .valid` into the four
field conditions. -/
theorem validateConnectionInfo_valid_iff (homeDir : JStr) (info : SSHConnectionInfo) :
    validateConnectionInfo homeDir info = .valid ↔
      isValidHost info.host = true ∧ isValidUser info.user = true ∧
      isValidPort (.inl (some (info.port : ℚ))) = true ∧
      (∀ f, info.identityFile = some f → f.isEmpty = true ∨
        isValidIdentityFile homeDir f = true) := by
  unfold validateConnectionInfo
  split_ifs with h1 h2 h3
  · simp_all
  · simp_all
  · simp_all
  · simp only [Bool.not_eq_true'] at h1 h2 h3
    cases hid : info.identityFile with
    | none => simp_all
    | some f =>
      by_cases hf : f.isEmpty <;> by_cases hv : isValidIdentityFile homeDir f <;>
        simp_all

/-- C7: `generateSSHConfigAlias` coincides with the spec's
`aliasFor(fleetName, vesselName, "SSHarbor")` — each segment is cleaned
independently by replacing every character outside `[A-Za-z0-9]` with `_` —
and on fleet `AWS-Prod`, vessel `DB (Master)` it yields
`SSHarbor_AWS_Prod_DB__Master_`. -/
theorem C7_alias_spec :
    (∀ info : SSHConnectionInfo,
      generateSSHConfigAlias info =
        specAliasFor info.fleetName info.name "SSHarbor".data) ∧
    generateSSHConfigAlias
      { name := "DB (Master)".data, host := "db.example.com".data,
        user := "admin".data, port := 22, shell := "/bin/bash".data,
        fleetName := "AWS-Prod".data } = "SSHarbor_AWS_Prod_DB__Master_".data := by
  constructor
  · intro info
    show "SSHarbor_".data ++ _ ++ _ = "SSHarbor".data ++ '_' :: _
    simp [specAliasFor]
  · decide

/-- C5: the execution builder first validates and fails exactly on
validation failure, carrying exactly the validator's message; on success it
returns a command without failing. -/
theorem C5_execution_validates (homeDir : JStr) (fsExists : JStr → Bool)
    (info : SSHConnectionInfo) :
    (∀ e, buildSSHCommand homeDir fsExists info = .error e ↔
      validateConnectionInfo homeDir info = .invalid e) ∧
    (validateConnectionInfo homeDir info = .valid →
      ∃ c, buildSSHCommand homeDir fsExists info = .ok c) := by
  constructor
  · intro e
    unfold buildSSHCommand
    cases h : validateConnectionInfo homeDir info <;> simp
  · intro h
    unfold buildSSHCommand
    rw [h]
    exact ⟨_, rfl⟩

/-- Witness for C5 at a concrete valid connection. -/
theorem C5_execution_validates_witness :
    ∃ c, buildSSHCommand "/home/testuser".data (fun _ => false)
      { name := "Server".data, host := "example.com".data, user := "admin".data,
        port := 22, shell := "/bin/bash".data, fleetName := "Production".data } =
      .ok c :=
  (C5_execution_validates _ _ _).2 (by decide)

/-- C9: a set identity file whose expanded path does not exist is non-fatal:
the command equals the one built with no identity file at all, and the build
returns a command rather than failing. -/
theorem C9_missing_identity_nonfatal (homeDir : JStr) (fsExists : JStr → Bool)
    (info : SSHConnectionInfo) (f : JStr)
    (hf : info.identityFile = some f)
    (hmiss : fsExists (expandPath homeDir f) = false)
    (hval : validateConnectionInfo homeDir info = .valid) :
    buildSSHCommand homeDir fsExists info =
      buildSSHCommand homeDir fsExists { info with identityFile := none } ∧
    ∃ c, buildSSHCommand homeDir fsExists info = .ok c := by
  have hfields := (validateConnectionInfo_valid_iff homeDir info).mp hval
  have hval2 : validateConnectionInfo homeDir { info with identityFile := none } = .valid := by
    rw [validateConnectionInfo_valid_iff]
    refine ⟨hfields.1, hfields.2.1, hfields.2.2.1, ?_⟩
    intro g hg
    simp at hg
  have h1 : buildSSHCommand homeDir fsExists info =
      buildSSHCommand homeDir fsExists { info with identityFile := none } := by
    unfold buildSSHCommand
    rw [hval, hval2, hf]
    by_cases hfe : f.isEmpty <;> simp [hfe, hmiss]
  refine ⟨h1, ?_⟩
  rw [h1]
  unfold buildSSHCommand
  rw [hval2]
  exact ⟨_, rfl⟩

/-- Witness for C9 at a concrete connection whose key file is absent. -/
theorem C9_missing_identity_nonfatal_witness :
    buildSSHCommand "/home/testuser".data (fun _ => false)
      { name := "Server".data, host := "example.com".data, user := "admin".data,
        port := 22, identityFile := some "~/.ssh/id_rsa".data,
        shell := "/bin/bash".data, fleetName := "Production".data } =
      buildSSHCommand "/home/testuser".data (fun _ => false)
      { name := "Server".data, host := "example.com".data, user := "admin".data,
        port := 22, identityFile := none,
        shell := "/bin/bash".data, fleetName := "Production".data } :=
  (C9_missing_identity_nonfatal "/home/testuser".data (fun _ => false) _
    "~/.ssh/id_rsa".data rfl rfl (by decide)).1

/-- C4: for every valid resolved connection, with the identity-file
existence check assumed true, both builders emit the space-joined tokens
`ssh`, then `-i identity` exactly when an identity file is set (truthy),
then `-p port` exactly when the port is not 22, then `user@host` —
the execution variant with the `~`-expanded identity path, the display
variant with the raw one. -/
theorem C4_token_order (homeDir : JStr) (fsExists : JStr → Bool)
    (info : SSHConnectionInfo)
    (hval : validateConnectionInfo homeDir info = .valid)
    (hex : ∀ p, fsExists p = true) :
    buildSSHCommand homeDir fsExists info =
      .ok (joinSpace (["ssh".data] ++
        (match info.identityFile with
         | some f => if f.isEmpty then [] else ["-i".data, expandPath homeDir f]
         | none => []) ++
        (if info.port ≠ 22 then ["-p".data, natToChars info.port] else []) ++
        [info.user ++ '@' :: info.host])) ∧
    buildSSHCommandDisplay info =
      joinSpace (["ssh".data] ++
        (match info.identityFile with
         | some f => if f.isEmpty then [] else ["-i".data, f]
         | none => []) ++
        (if info.port ≠ 22 then ["-p".data, natToChars info.port] else []) ++
        [info.user ++ '@' :: info.host]) := by
  constructor
  · unfold buildSSHCommand
    rw [hval]
    cases hid : info.identityFile with
    | none => rfl
    | some f => by_cases hfe : f.isEmpty <;> simp [hfe, hex]
  · rfl

/-- Witness for C4 at a concrete valid connection with identity file and
non-default port. -/
theorem C4_token_order_witness :
    buildSSHCommand "/home/testuser".data (fun _ => true)
      { name := "Server".data, host := "example.com".data, user := "admin".data,
        port := 2222, identityFile := some "~/.ssh/id_rsa".data,
        shell := "/bin/bash".data, fleetName := "Production".data } =
      .ok "ssh -i /home/testuser/.ssh/id_rsa -p 2222 admin@example.com".data :=
  ((C4_token_order "/home/testuser".data (fun _ => true) _
      (by decide) (fun _ => rfl)).1).trans (by rfl)

/-! ### `splitFirst` -/

/-- Splitting at an explicit first separator. -/
theorem splitFirst_append (sep : Char) (a b : JStr) (ha : sep ∉ a) :
    splitFirst sep (a ++ sep :: b) = some (a, b) := by
  induction a with
  | nil => simp [splitFirst]
  | cons c a ih =>
    have hc : c ≠ sep := fun h => ha (h ▸ List.mem_cons_self c a)
    have ha2 : sep ∉ a := fun h => ha (List.mem_cons_of_mem c h)
    simp [splitFirst, hc, ih ha2]

/-- A successful `splitFirst` exhibits the decomposition at the first
separator. -/
theorem splitFirst_eq_some (sep : Char) :
    ∀ s a b : JStr, splitFirst sep s = some (a, b) →
      s = a ++ sep :: b ∧ sep ∉ a := by
  intro s
  induction s with
  | nil => intro a b h; simp [splitFirst] at h
  | cons c cs ih =>
    intro a b h
    by_cases hc : c = sep
    · subst hc
      rw [splitFirst, if_pos rfl] at h
      simp only [Option.some.injEq, Prod.mk.injEq] at h
      obtain ⟨rfl, rfl⟩ := h
      exact ⟨rfl, by simp⟩
    · rw [splitFirst, if_neg hc] at h
      cases hs : splitFirst sep cs with
      | none => rw [hs] at h; simp at h
      | some p =>
        obtain ⟨a2, b2⟩ := p
        rw [hs] at h
        simp only [Option.map_some', Option.map_some, Option.some.injEq, Prod.mk.injEq] at h
        obtain ⟨rfl, rfl⟩ := h
        obtain ⟨hdec, hmem⟩ := ih a2 b2 hs
        refine ⟨by rw [hdec]; rfl, ?_⟩
        intro hm
        rcases List.mem_cons.mp hm with h1 | h2
        · exact hc h1.symm
        · exact hmem h2

/-- C10: `parseConnectionId` inverts `buildConnectionId` on every record
whose user contains no `@`, whose host contains no `:`, both non-empty; and
a successful parse only happens on strings of the shape
`user@host:digits`. -/
theorem C10_connectionId_roundtrip :
    (∀ info : ConnectionId, info.user ≠ [] → '@' ∉ info.user →
      info.host ≠ [] → ':' ∉ info.host →
      parseConnectionId (buildConnectionId info) = some info) ∧
    (∀ s : JStr, parseConnectionId s ≠ none →
      ∃ u h p : JStr, s = u ++ '@' :: (h ++ ':' :: p) ∧ u ≠ [] ∧ '@' ∉ u ∧
        h ≠ [] ∧ ':' ∉ h ∧ p ≠ [] ∧ p.all isDigitCh = true) := by
  constructor
  · intro info hu hua hh hhc
    obtain ⟨hall, hne, hval⟩ := natToChars_spec info.port
    unfold buildConnectionId parseConnectionId
    rw [splitFirst_append _ _ _ hua]
    simp only [List.isEmpty_eq_true, hu, if_false]
    rw [splitFirst_append _ _ _ hhc]
    simp [hh, hne, hall, hval, List.isEmpty_iff]
  · intro s hs
    unfold parseConnectionId at hs
    cases h1 : splitFirst '@' s with
    | none => rw [h1] at hs; simp at hs
    | some p1 =>
      obtain ⟨u, rest⟩ := p1
      rw [h1] at hs
      obtain ⟨hs1, hu⟩ := splitFirst_eq_some '@' s u rest h1
      by_cases hue : u.isEmpty
      · simp [hue] at hs
      · simp only [hue, if_false] at hs
        cases h2 : splitFirst ':' rest with
        | none => rw [h2] at hs; simp at hs
        | some p2 =>
          obtain ⟨h, pstr⟩ := p2
          rw [h2] at hs
          obtain ⟨hs2, hhc⟩ := splitFirst_eq_some ':' rest h pstr h2
          by_cases hhe : h.isEmpty
          · simp [hhe] at hs
          · simp only [hhe, if_false] at hs
            by_cases hp : pstr.isEmpty = true ∨ ¬ pstr.all isDigitCh = true
            · exfalso
              apply hs
              rcases hp with hp | hp <;> simp [hp]
            · push_neg at hp
              refine ⟨u, h, pstr, by rw [hs1, hs2], ?_, hu, ?_, hhc, ?_, hp.2⟩
              · exact fun he => by simp [he] at hue
              · exact fun he => by simp [he] at hhe
              · exact fun he => by simp [he] at hp

/-- Witness for C10 at a concrete record and its rendered id. -/
theorem C10_connectionId_roundtrip_witness :
    parseConnectionId (buildConnectionId ⟨"example.com".data, "admin".data, 22⟩) =
      some ⟨"example.com".data, "admin".data, 22⟩ :=
  C10_connectionId_roundtrip.1 ⟨"example.com".data, "admin".data, 22⟩
    (by decide) (by decide) (by decide) (by decide)

/-! ### C1: `isValidPort` -/

/-- C1 counterexample: the string `123abc` — non-numeric, with a numeric
prefix followed by other characters, claimed to be rejected — is accepted,
because `parseInt('123abc', 10)` is `123`. -/
theorem C1_counterexample : isValidPort (.inr "123abc".data) = true := by decide

/-- C1 (amended): an integer port is accepted exactly when it lies in
`[1, 65535]`; `NaN` is rejected; a string whose `parseInt` is `NaN` is
rejected; the decimal rendering of a natural number is accepted exactly when
the number lies in `[1, 65535]`; and a general (possibly non-integer) number
is accepted exactly when it is positive and at most 65535. -/
theorem C1_isValidPort_amended :
    (∀ n : ℤ, isValidPort (.inl (some (n : ℚ))) = decide (1 ≤ n ∧ n ≤ 65535)) ∧
    isValidPort (.inl none) = false ∧
    (∀ s : JStr, parseIntTen s = none → isValidPort (.inr s) = false) ∧
    (∀ n : ℕ, isValidPort (.inr (natToChars n)) = decide (1 ≤ n ∧ n ≤ 65535)) ∧
    (∀ q : ℚ, isValidPort (.inl (some q)) = decide (0 < q ∧ q ≤ 65535)) := by
  have hint : ∀ n : ℤ, isValidPort (.inl (some (n : ℚ))) =
      decide (1 ≤ n ∧ n ≤ 65535) := by
    intro n
    show (decide (0 < (n : ℚ)) && decide ((n : ℚ) ≤ 65535)) = _
    rw [Bool.and_eq_decide]
    apply decide_eq_decide.mpr
    rw [show ((65535 : ℚ)) = ((65535 : ℤ) : ℚ) by norm_num, Int.cast_pos,
      Int.cast_le]
    omega
  refine ⟨hint, rfl, ?_, ?_, ?_⟩
  · intro s h
    show (match (parseIntTen s).map (fun z => (z : ℚ)) with
      | none => false
      | some q => decide (0 < q) && decide (q ≤ 65535)) = false
    rw [h]
    rfl
  · intro n
    have : isValidPort (.inr (natToChars n)) =
        isValidPort (.inl (some ((n : ℤ) : ℚ))) := by
      show (match (parseIntTen (natToChars n)).map (fun z => (z : ℚ)) with
        | none => false
        | some q => decide (0 < q) && decide (q ≤ 65535)) = _
      rw [parseIntTen_natToChars]
      rfl
    rw [this, hint]
    apply decide_eq_decide.mpr
    omega
  · intro q
    show (decide (0 < q) && decide (q ≤ 65535)) = _
    exact Bool.and_eq_decide _ _

/-- Witness for C1 (amended): a string with no parseable numeric prefix is
rejected, via the amended theorem. -/
theorem C1_isValidPort_amended_witness : isValidPort (.inr "abc".data) = false :=
  C1_isValidPort_amended.2.2.1 "abc".data (by decide)

/-! ### C8: `parseQuickConnect` -/

/-- C8: parsing `admin@example.com:2222` and `example.com` yields the
documented records, and every successful parse has passed the host, user and
port validators (a failure of parsing or of any validator yields `none`). -/
theorem C8_parseQuickConnect :
    parseQuickConnect "admin@example.com:2222".data =
      some ⟨some "admin".data, "example.com".data, some 2222⟩ ∧
    parseQuickConnect "example.com".data =
      some ⟨none, "example.com".data, none⟩ ∧
    (∀ (input : JStr) (r : QuickConnectParsed), parseQuickConnect input = some r →
      isValidHost r.host = true ∧
      (∀ u, r.user = some u → isValidUser u = true) ∧
      (∀ p, r.port = some p → isValidPort (.inl (some (p : ℚ))) = true)) := by
  refine ⟨by decide, by decide, ?_⟩
  intro input r h
  simp only [parseQuickConnect] at h
  split at h
  · exact absurd h (by simp)
  · cases hqm : quickConnectMatch (sanitize (jsTrim input)) with
    | none => rw [hqm] at h; exact absurd h (by simp)
    | some trip =>
      obtain ⟨uo, ho, po⟩ := trip
      rw [hqm] at h
      simp only at h
      by_cases hhost : isValidHost ho = true
      · rw [if_neg (by simp [hhost])] at h
        have hmain : ∀ (uov : Option JStr),
            (∀ u, uov = some u → isValidUser u = true) →
            ((match Option.map digitsVal po with
              | some p =>
                if (!isValidPort (Sum.inl (some (p : ℚ)))) = true then none
                else some (QuickConnectParsed.mk uov ho (some p))
              | none => some (QuickConnectParsed.mk uov ho none)) = some r) →
            isValidHost r.host = true ∧
            (∀ u, r.user = some u → isValidUser u = true) ∧
            (∀ p, r.port = some p →
              isValidPort (.inl (some (p : ℚ))) = true) := by
          intro uov huser2 hbody
          cases po with
          | none =>
            simp only [Option.map_none'] at hbody
            have hr : QuickConnectParsed.mk uov ho none = r := by
              simpa using hbody
            subst hr
            refine ⟨hhost, huser2, ?_⟩
            intro p hp
            simp at hp
          | some pstr =>
            simp only [Option.map_some'] at hbody
            by_cases hport :
                isValidPort (.inl (some ((digitsVal pstr : ℕ) : ℚ))) = true
            · rw [if_neg (by simp [hport])] at hbody
              have hr : QuickConnectParsed.mk uov ho (some (digitsVal pstr)) = r := by
                simpa using hbody
              subst hr
              refine ⟨hhost, huser2, ?_⟩
              intro p hp
              simp only [Option.some.injEq] at hp
              subst hp
              exact hport
            · rw [if_pos (by simp [hport])] at hbody
              exact absurd hbody (by simp)
        cases uo with
        | none =>
          rw [if_neg (by simp)] at h
          exact hmain none (by intro u hu; simp at hu) h
        | some u =>
          by_cases hv : isValidUser u = true
          · rw [if_neg (by simp [hv])] at h
            exact hmain (some u)
              (by intro u2 hu2; simp only [Option.some.injEq] at hu2;
                  subst hu2; exact hv) h
          · have hfalse : isValidUser u = false := Bool.eq_false_iff.mpr hv
            rw [if_pos (by show (!isValidUser u) = true; rw [hfalse]; rfl)] at h
            exact absurd h (by simp)
      · rw [if_pos (by simp [hhost])] at h
        exact absurd h (by simp)

/-- Witness for C8: the validator facts extracted from the successful parse
of `admin@example.com:2222`, via the theorem. -/
theorem C8_parseQuickConnect_witness :
    isValidHost "example.com".data = true ∧
    (∀ u, (some "admin".data : Option JStr) = some u → isValidUser u = true) ∧
    (∀ p, (some 2222 : Option ℕ) = some p →
      isValidPort (.inl (some (p : ℚ))) = true) :=
  C8_parseQuickConnect.2.2 "admin@example.com:2222".data
    ⟨some "admin".data, "example.com".data, some 2222⟩ (by decide)

/-! ### C6: the defaults cascade -/

/-- One step of the cascade for string fields: JavaScript `a || rest`
agrees with "first present and non-empty". -/
theorem jsOrStr_firstNonEmpty (a : Option JStr) (z : JStr)
    (chain : List (Option JStr)) (h : some z = firstNonEmptyStr chain) :
    some (jsOrStr a z) = firstNonEmptyStr (a :: chain) := by
  cases a with
  | none => simpa [jsOrStr, firstNonEmptyStr] using h
  | some s =>
    by_cases hs : s.isEmpty
    · have hs2 : s = [] := List.isEmpty_iff.mp hs
      subst hs2
      simpa [jsOrStr, firstNonEmptyStr] using h
    · have hs2 : s ≠ [] := by simpa [List.isEmpty_iff] using hs
      simp [jsOrStr, firstNonEmptyStr, List.findSome?_cons, hs2]

/-- One step of the cascade for the optional identity file. -/
theorem jsOrStrOpt_firstNonEmpty (a : Option JStr)
    (z : Option JStr) (chain : List (Option JStr))
    (h : z = firstNonEmptyStr chain) :
    jsOrStrOpt a z = firstNonEmptyStr (a :: chain) := by
  cases a with
  | none => simpa [jsOrStrOpt, firstNonEmptyStr] using h
  | some s =>
    by_cases hs : s.isEmpty
    · have hs2 : s = [] := List.isEmpty_iff.mp hs
      subst hs2
      simpa [jsOrStrOpt, firstNonEmptyStr] using h
    · have hs2 : s ≠ [] := by simpa [List.isEmpty_iff] using hs
      simp [jsOrStrOpt, firstNonEmptyStr, List.findSome?_cons, hs2]

/-- One step of the cascade for the port: JavaScript `a || rest` with `0`
falsy agrees with "first present and non-zero". -/
theorem jsOrNat_firstNonZero (a : Option ℕ) (z : ℕ)
    (chain : List (Option ℕ)) (h : some z = firstNonZeroPort chain) :
    some (jsOrNat a z) = firstNonZeroPort (a :: chain) := by
  cases a with
  | none => simpa [jsOrNat, firstNonZeroPort] using h
  | some n =>
    by_cases hn : n = 0
    · subst hn
      simpa [jsOrNat, firstNonZeroPort] using h
    · simp [jsOrNat, firstNonZeroPort, hn]

/-- C6: each of the four resolved fields equals the first present-and-
non-empty value scanning vessel override, fleet defaults, harbor defaults,
then the extension-settings fallback (no settings fallback exists for the
identity file); `user`, `port` and `shell` always resolve when the settings
fallbacks are themselves non-empty, while `identityFile` may resolve to
absent. -/
theorem C6_defaults_cascade (vessel : Vessel) (fleet : Fleet)
    (hd : HarborDefaults) (st : SSHarborSettings)
    (hu : st.defaultUser ≠ []) (hp : st.defaultPort ≠ 0)
    (hsh : st.defaultShell ≠ []) (hi : hd.identityFile ≠ some []) :
    some (resolveConnectionInfo vessel fleet hd st).user =
      firstNonEmptyStr [vessel.user, fleet.defaults.bind (·.user), hd.user,
        some st.defaultUser] ∧
    some (resolveConnectionInfo vessel fleet hd st).port =
      firstNonZeroPort [vessel.port, fleet.defaults.bind (·.port), hd.port,
        some st.defaultPort] ∧
    (resolveConnectionInfo vessel fleet hd st).identityFile =
      firstNonEmptyStr [vessel.identityFile,
        fleet.defaults.bind (·.identityFile), hd.identityFile] ∧
    some (resolveConnectionInfo vessel fleet hd st).shell =
      firstNonEmptyStr [vessel.shell, fleet.defaults.bind (·.shell), hd.shell,
        some st.defaultShell] := by
  have hbaseU : some st.defaultUser = firstNonEmptyStr [some st.defaultUser] := by
    simp [firstNonEmptyStr, List.isEmpty_iff, hu]
  have hbaseP : some st.defaultPort = firstNonZeroPort [some st.defaultPort] := by
    simp [firstNonZeroPort, hp]
  have hbaseS : some st.defaultShell = firstNonEmptyStr [some st.defaultShell] := by
    simp [firstNonEmptyStr, List.isEmpty_iff, hsh]
  have hbaseI : hd.identityFile = firstNonEmptyStr [hd.identityFile] := by
    cases hid : hd.identityFile with
    | none => simp [firstNonEmptyStr]
    | some s =>
      have : s ≠ [] := fun he => hi (by rw [hid, he])
      simp [firstNonEmptyStr, List.isEmpty_iff, this]
  refine ⟨?_, ?_, ?_, ?_⟩
  · exact jsOrStr_firstNonEmpty _ _ _ (jsOrStr_firstNonEmpty _ _ _
      (jsOrStr_firstNonEmpty _ _ _ hbaseU))
  · exact jsOrNat_firstNonZero _ _ _ (jsOrNat_firstNonZero _ _ _
      (jsOrNat_firstNonZero _ _ _ hbaseP))
  · exact jsOrStrOpt_firstNonEmpty _ _ _ (jsOrStrOpt_firstNonEmpty _ _ _ hbaseI)
  · exact jsOrStr_firstNonEmpty _ _ _ (jsOrStr_firstNonEmpty _ _ _
      (jsOrStr_firstNonEmpty _ _ _ hbaseS))

/-- Witness for C6 at a concrete vessel/fleet/defaults/settings
combination exercising three levels of the cascade. -/
theorem C6_defaults_cascade_witness :
    some (resolveConnectionInfo
      { name := "Web".data, host := "example.com".data, port := some 2222 }
      { name := "Prod".data,
        defaults := some { user := some "deploy".data } }
      { shell := some "/bin/zsh".data }
      { defaultShell := "/bin/bash".data, defaultUser := "root".data,
        defaultPort := 22 }).user =
      firstNonEmptyStr [none, some "deploy".data, none, some "root".data] :=
  (C6_defaults_cascade _ _ _ _ (by decide) (by decide) (by decide)
    (by decide)).1

/-! ### Substring and splitting infrastructure -/

/-- `containsSub` decides the infix relation. -/
theorem containsSub_iff (pat : JStr) :
    ∀ s : JStr, containsSub pat s = true ↔ pat <:+: s := by
  intro s
  induction s with
  | nil =>
    rw [containsSub, List.isEmpty_iff]
    constructor
    · intro h
      rw [h]
    · intro h
      exact List.eq_nil_of_infix_nil h
  | cons c rest ih =>
    rw [containsSub, Bool.or_eq_true, List.isPrefixOf_iff_prefix, ih,
      List.infix_cons_iff]

/-- A prefix of a concatenation is a prefix of the first part or extends
it into the second. -/
theorem prefix_append_cases {p a b : JStr} (h : p <+: a ++ b) :
    p <+: a ∨ ∃ q, p = a ++ q ∧ q <+: b := by
  rcases le_or_lt p.length a.length with hle | hlt
  · exact Or.inl (List.prefix_of_prefix_length_le h (List.prefix_append a b) hle)
  · right
    have ha : a <+: p :=
      List.prefix_of_prefix_length_le (List.prefix_append a b) h (le_of_lt hlt)
    obtain ⟨q, rfl⟩ := ha
    obtain ⟨t, ht⟩ := h
    refine ⟨q, rfl, t, ?_⟩
    have := ht
    rw [List.append_assoc] at this
    exact (List.append_cancel_left this)

/-- An infix of a concatenation lies in one part or crosses the boundary,
splitting into a non-empty suffix of the first part and a non-empty prefix
of the second. -/
theorem infix_append_cases {p : JStr} :
    ∀ {a b : JStr}, p <:+: a ++ b →
      p <:+: a ∨ p <:+: b ∨
        ∃ p1 p2, p = p1 ++ p2 ∧ p1 ≠ [] ∧ p2 ≠ [] ∧ p1 <:+ a ∧ p2 <+: b := by
  intro a
  induction a with
  | nil => intro b h; exact Or.inr (Or.inl h)
  | cons c a ih =>
    intro b h
    rcases List.infix_cons_iff.mp h with hpre | htail
    · cases p with
      | nil => exact Or.inl List.nil_infix
      | cons x pt =>
        obtain ⟨rfl, hp⟩ := List.cons_prefix_cons.mp hpre
        rcases prefix_append_cases hp with hp1 | ⟨q, rfl, hq⟩
        · exact Or.inl (List.IsPrefix.isInfix
            (List.cons_prefix_cons.mpr ⟨rfl, hp1⟩))
        · rcases eq_or_ne q [] with rfl | hqne
          · refine Or.inl ?_
            have he : x :: (a ++ ([] : JStr)) = x :: a := by simp
            rw [he]
          · refine Or.inr (Or.inr ⟨x :: a, q, rfl, by simp, hqne,
              List.suffix_refl _, hq⟩)
    · rcases ih htail with h1 | h2 | ⟨p1, p2, hp, h3, h4, h5, h6⟩
      · exact Or.inl (List.infix_cons h1)
      · exact Or.inr (Or.inl h2)
      · exact Or.inr (Or.inr ⟨p1, p2, hp, h3, h4,
          h5.trans (List.suffix_cons c a), h6⟩)

/-- `splitOnChar` never returns the empty list of pieces. -/
theorem splitOnChar_ne_nil (sep : Char) :
    ∀ s : JStr, splitOnChar sep s ≠ [] := by
  intro s
  induction s with
  | nil => simp [splitOnChar]
  | cons c rest ih =>
    rw [splitOnChar]
    split
    · simp
    · split
      · simp
      · simp

/-- Splitting distributes over an explicit separator occurrence. -/
theorem splitOnChar_sep_append (sep : Char) :
    ∀ X R : JStr,
      splitOnChar sep (X ++ sep :: R) = splitOnChar sep X ++ splitOnChar sep R := by
  intro X R
  induction X with
  | nil => simp [splitOnChar]
  | cons c X ih =>
    by_cases hc : c = sep
    · subst hc
      rw [List.cons_append, splitOnChar, if_pos rfl, ih, splitOnChar,
        if_pos rfl]
      rfl
    · rw [List.cons_append, splitOnChar, if_neg hc, ih]
      rw [splitOnChar, if_neg hc]
      cases hX : splitOnChar sep X with
      | nil => exact absurd hX (splitOnChar_ne_nil sep X)
      | cons m ms => rfl

/-- A separator-free string is a single piece. -/
theorem splitOnChar_eq_single {sep : Char} :
    ∀ {s : JStr}, sep ∉ s → splitOnChar sep s = [s] := by
  intro s
  induction s with
  | nil => intro _; rfl
  | cons c rest ih =>
    intro h
    have hc : c ≠ sep := fun he => h (he ▸ List.mem_cons_self c rest)
    rw [splitOnChar, if_neg hc, ih (fun hm => h (List.mem_cons_of_mem c hm))]

/-- The first piece of a split is a prefix; every piece is separator-free
and an infix. -/
theorem splitOnChar_spec (sep : Char) :
    ∀ s : JStr, (∀ m ms, splitOnChar sep s = m :: ms → m <+: s) ∧
      (∀ l ∈ splitOnChar sep s, sep ∉ l ∧ l <:+: s) := by
  intro s
  induction s with
  | nil =>
    constructor
    · intro m ms h
      rw [splitOnChar] at h
      injection h with h1 h2
      subst h1
      exact List.nil_prefix
    · intro l hl
      rw [splitOnChar] at hl
      rcases List.mem_cons.mp hl with rfl | h2
      · exact ⟨by simp, List.infix_refl _⟩
      · simp at h2
  | cons c rest ih =>
    by_cases hc : c = sep
    · subst hc
      constructor
      · intro m ms h
        rw [splitOnChar, if_pos rfl] at h
        injection h with h1 h2
        subst h1
        exact List.nil_prefix
      · intro l hl
        rw [splitOnChar, if_pos rfl] at hl
        rcases List.mem_cons.mp hl with rfl | hl2
        · exact ⟨by simp, List.nil_infix⟩
        · obtain ⟨h1, h2⟩ := ih.2 l hl2
          exact ⟨h1, List.infix_cons h2⟩
    · obtain ⟨m0, ms0, hrest⟩ : ∃ m0 ms0, splitOnChar sep rest = m0 :: ms0 := by
        cases h : splitOnChar sep rest with
        | nil => exact absurd h (splitOnChar_ne_nil sep rest)
        | cons m0 ms0 => exact ⟨m0, ms0, rfl⟩
      have hsplit : splitOnChar sep (c :: rest) = (c :: m0) :: ms0 := by
        rw [splitOnChar, if_neg hc, hrest]
      have hm0 : m0 <+: rest := ih.1 m0 ms0 hrest
      have hm0mem : m0 ∈ splitOnChar sep rest := by
        rw [hrest]
        exact List.mem_cons_self m0 ms0
      constructor
      · intro m ms h
        rw [hsplit] at h
        injection h with h1 h2
        subst h1
        exact List.cons_prefix_cons.mpr ⟨rfl, hm0⟩
      · intro l hl
        rw [hsplit] at hl
        rcases List.mem_cons.mp hl with rfl | hl2
        · refine ⟨?_, (List.cons_prefix_cons.mpr ⟨rfl, hm0⟩).isInfix⟩
          intro hmem
          rcases List.mem_cons.mp hmem with h1 | h2
          · exact hc h1.symm
          · exact (ih.2 m0 hm0mem).1 h2
        · obtain ⟨h1, h2⟩ := ih.2 l
            (by rw [hrest]; exact List.mem_cons_of_mem m0 hl2)
          exact ⟨h1, List.infix_cons h2⟩

/-- Membership in a split yields an infix. -/
theorem mem_splitOnChar_sub {sep : Char} {s l : JStr}
    (h : l ∈ splitOnChar sep s) : l <:+: s :=
  ((splitOnChar_spec sep s).2 l h).2

/-- Pieces of a split contain no separator. -/
theorem mem_splitOnChar_not_sep {sep : Char} {s l : JStr}
    (h : l ∈ splitOnChar sep s) : sep ∉ l :=
  ((splitOnChar_spec sep s).2 l h).1

/-! ### Path normalisation -/

/-- `joinSegs` over a cons with a non-empty tail. -/
theorem joinSegs_cons (x : JStr) {L : List JStr} (h : L ≠ []) :
    joinSegs (x :: L) = x ++ '/' :: joinSegs L := by
  cases L with
  | nil => exact absurd rfl h
  | cons y ys => rfl

/-- `joinSegs` distributes over append of non-empty lists. -/
theorem joinSegs_append :
    ∀ (xs ys : List JStr), xs ≠ [] → ys ≠ [] →
      joinSegs (xs ++ ys) = joinSegs xs ++ '/' :: joinSegs ys := by
  intro xs
  induction xs with
  | nil => intro ys h _; exact absurd rfl h
  | cons x xs ih =>
    intro ys _ hys
    cases xs with
    | nil =>
      show joinSegs (x :: ys) = joinSegs [x] ++ '/' :: joinSegs ys
      rw [joinSegs_cons x hys]
      rfl
    | cons z zs =>
      show joinSegs (x :: (z :: zs ++ ys)) = _
      rw [joinSegs_cons x (by simp : z :: zs ++ ys ≠ []),
        joinSegs_cons x (by simp : (z :: zs : List JStr) ≠ []),
        ih ys (by simp) hys, List.append_assoc]
      rfl

/-- Folding `normStep` over traversal-free segments appends the kept
segments. -/
theorem foldl_normStep_keep :
    ∀ (segs : List JStr), (∀ s ∈ segs, s ≠ ['.', '.']) →
      ∀ acc, List.foldl normStep acc segs = acc ++ segs.filter keepSeg := by
  intro segs
  induction segs with
  | nil => intro _ acc; simp
  | cons s rest ih =>
    intro h acc
    have hs : s ≠ ['.', '.'] := h s (List.mem_cons_self s rest)
    have hrest : ∀ t ∈ rest, t ≠ ['.', '.'] :=
      fun t ht => h t (List.mem_cons_of_mem s ht)
    by_cases hskip : s = [] ∨ s = ['.']
    · have hstep : normStep acc s = acc := by
        rw [normStep, if_pos]
        rcases hskip with rfl | rfl <;> simp
      have hkeep : keepSeg s = false := by
        rcases hskip with rfl | rfl <;> rfl
      rw [List.foldl_cons, hstep, ih hrest acc, List.filter_cons, hkeep]
      simp
    · push_neg at hskip
      have hstep : normStep acc s = acc ++ [s] := by
        rw [normStep, if_neg (by simp [hskip.1, hskip.2]), if_neg hs]
      have hkeep : keepSeg s = true := by
        simp [keepSeg, hskip.1, hskip.2]
      rw [List.foldl_cons, hstep, ih hrest (acc ++ [s]), List.filter_cons,
        hkeep, List.append_assoc]
      simp

/-- Good segments are kept by the filter. -/
theorem filter_keepSeg_of_good {segs : List JStr}
    (h : ∀ s ∈ segs, goodSeg s) : segs.filter keepSeg = segs := by
  apply List.filter_eq_self.mpr
  intro s hs
  obtain ⟨h1, h2, -, -⟩ := h s hs
  simp [keepSeg, h1, h2]

/-- Splitting a good-segment join recovers the segments. -/
theorem splitOnChar_joinSegs :
    ∀ (segs : List JStr), (∀ s ∈ segs, goodSeg s) → segs ≠ [] →
      splitOnChar '/' (joinSegs segs) = segs := by
  intro segs
  induction segs with
  | nil => intro _ h; exact absurd rfl h
  | cons s rest ih =>
    intro hgood _
    have hs : '/' ∉ s := (hgood s (List.mem_cons_self s rest)).2.2.2
    rcases eq_or_ne rest [] with rfl | hne
    · exact splitOnChar_eq_single hs
    · rw [joinSegs_cons s hne, splitOnChar_sep_append, splitOnChar_eq_single hs,
        ih (fun t ht => hgood t (List.mem_cons_of_mem s ht)) hne]
      rfl

/-! ### C3: `isValidIdentityFile` -/

/-- A consumed indented line is strictly shorter. -/
theorem indentedLineStep_length {s r : JStr} (h : indentedLineStep s = some r) :
    r.length < s.length := by
  unfold indentedLineStep at h
  split at h
  · rename_i rest
    split at h
    · simp at h
    · split at h
      · rename_i r2 heq
        simp only [Option.some.injEq] at h
        have h2 : r2.length = r.length := by rw [h]
        have h1 : ('\n' :: r2).length ≤ rest.length := by
          rw [← heq]
          exact (List.dropWhile_suffix _).length_le
        simp only [List.length_cons] at h1 ⊢
        omega
      · simp at h
  · simp at h

/-- Fuel irrelevance for the greedy indented-line scanner. -/
theorem indentedStarAux_fuel :
    ∀ f g s, s.length ≤ f → s.length ≤ g →
      indentedStarAux f s = indentedStarAux g s := by
  intro f
  induction f with
  | zero =>
    intro g s hf hg
    have hs : s = [] := List.length_eq_zero.mp (Nat.le_zero.mp hf)
    subst hs
    cases g with
    | zero => rfl
    | succ g =>
      show ([] : JStr) = indentedStarAux (g + 1) []
      rw [indentedStarAux]
      cases h : indentedLineStep [] with
      | none => rfl
      | some r => simp [indentedLineStep] at h
  | succ f ih =>
    intro g s hf hg
    cases g with
    | zero =>
      have hs : s = [] := List.length_eq_zero.mp (Nat.le_zero.mp hg)
      subst hs
      rw [indentedStarAux]
      cases h : indentedLineStep [] with
      | none => rfl
      | some r => simp [indentedLineStep] at h
    | succ g =>
      cases h : indentedLineStep s with
      | none => rw [indentedStarAux, indentedStarAux, h]
      | some r =>
        have hr := indentedLineStep_length h
        rw [indentedStarAux, indentedStarAux, h]
        exact ih g r (by omega) (by omega)

/-- The greedy scanner stops on a non-matching head. -/
theorem indentedStar_none {s : JStr} (h : indentedLineStep s = none) :
    indentedStar s = s := by
  unfold indentedStar
  cases hl : s.length with
  | zero => rfl
  | succ n => rw [indentedStarAux, h]

/-- The greedy scanner consumes a matching head line. -/
theorem indentedStar_some {s r : JStr} (h : indentedLineStep s = some r) :
    indentedStar s = indentedStar r := by
  have hr := indentedLineStep_length h
  unfold indentedStar
  cases hl : s.length with
  | zero => omega
  | succ n =>
    rw [indentedStarAux, h]
    exact indentedStarAux_fuel n r.length r (by omega) le_rfl

/-- The greedy scanner never grows its input. -/
theorem indentedStar_length_le : ∀ s : JStr, (indentedStar s).length ≤ s.length := by
  have main : ∀ n, ∀ s : JStr, s.length ≤ n →
      (indentedStar s).length ≤ s.length := by
    intro n
    induction n with
    | zero =>
      intro s hs
      have h0 : s = [] := List.length_eq_zero.mp (Nat.le_zero.mp hs)
      subst h0
      exact le_rfl
    | succ n ih =>
      intro s hs
      cases h : indentedLineStep s with
      | none => rw [indentedStar_none h]
      | some r =>
        have hr := indentedLineStep_length h
        rw [indentedStar_some h]
        have := ih r (by omega)
        omega
  exact fun s => main s.length s le_rfl

/-- A stanza match consumes at least the host line. -/
theorem tryStanza_length {al s r : JStr} (h : tryStanza al s = some r) :
    r.length < s.length := by
  have hsm : ∀ t u : JStr, stanzaMatch al t = some u → u.length < t.length := by
    intro t u hm
    unfold stanzaMatch at hm
    split at hm
    · rename_i hpre
      simp only [Option.some.injEq] at hm
      have hlen : (hostLine al ++ ['\n']).length ≤ t.length :=
        (List.isPrefixOf_iff_prefix.mp hpre).length_le
      have h1 : (indentedStar (t.drop (hostLine al ++ ['\n']).length)).length ≤
          (t.drop (hostLine al ++ ['\n']).length).length :=
        indentedStar_length_le _
      have h2 : u.length = (indentedStar
          (t.drop (hostLine al ++ ['\n']).length)).length := by rw [hm]
      rw [List.length_drop] at h1
      have h3 : 0 < (hostLine al ++ ['\n']).length := by
        simp [hostLine]
      omega
    · simp at hm
  unfold tryStanza at h
  split at h
  · rename_i rest
    split at h
    · rename_i u hm
      simp only [Option.some.injEq] at h
      have h4 := hsm rest u hm
      have h5 : u.length = r.length := by rw [h]
      simp only [List.length_cons]
      omega
    · have := hsm _ _ h
      omega
  · exact hsm _ _ h

/-- Fuel irrelevance for the stanza remover. -/
theorem removeStanzasAux_fuel (al : JStr) :
    ∀ f g s, s.length ≤ f → s.length ≤ g →
      removeStanzasAux al f s = removeStanzasAux al g s := by
  intro f
  induction f with
  | zero =>
    intro g s hf hg
    have hs : s = [] := List.length_eq_zero.mp (Nat.le_zero.mp hf)
    subst hs
    cases g <;> rfl
  | succ f ih =>
    intro g s hf hg
    cases g with
    | zero =>
      have hs : s = [] := List.length_eq_zero.mp (Nat.le_zero.mp hg)
      subst hs
      rfl
    | succ g =>
      cases s with
      | nil => rfl
      | cons c cs =>
        simp only [List.length_cons] at hf hg
        cases h : tryStanza al (c :: cs) with
        | none =>
          rw [removeStanzasAux, removeStanzasAux, h]
          exact congrArg (c :: ·) (ih g cs (by omega) (by omega))
        | some r =>
          have hr := tryStanza_length h
          simp only [List.length_cons] at hr
          rw [removeStanzasAux, removeStanzasAux, h]
          exact ih g r (by omega) (by omega)

/-- The remover leaves the empty string unchanged. -/
theorem removeStanzas_nil (al : JStr) : removeStanzas al [] = [] := rfl

/-- The remover emits a non-matching head character. -/
theorem removeStanzas_cons_none {al : JStr} {c : Char} {cs : JStr}
    (h : tryStanza al (c :: cs) = none) :
    removeStanzas al (c :: cs) = c :: removeStanzas al cs := by
  unfold removeStanzas
  rw [show (c :: cs).length = cs.length + 1 from rfl, removeStanzasAux, h]

/-- The remover deletes a match and continues after it. -/
theorem removeStanzas_cons_some {al : JStr} {c : Char} {cs r : JStr}
    (h : tryStanza al (c :: cs) = some r) :
    removeStanzas al (c :: cs) = removeStanzas al r := by
  have hr := tryStanza_length h
  simp only [List.length_cons] at hr
  unfold removeStanzas
  rw [show (c :: cs).length = cs.length + 1 from rfl, removeStanzasAux, h]
  exact removeStanzasAux_fuel al cs.length r.length r (by omega) le_rfl

/-- Characters of a cleaned alias segment. -/
theorem aliasClean_chars (s : JStr) :
    ∀ c ∈ aliasClean s, isAlphaNumCh c = true ∨ c = '_' := by
  intro c hc
  obtain ⟨d, -, rfl⟩ := List.mem_map.mp hc
  by_cases hd : isAlphaNumCh d = true
  · rw [if_pos hd]
    exact Or.inl hd
  · rw [if_neg hd]
    exact Or.inr rfl

/-- Characters of a generated alias. -/
theorem generateSSHConfigAlias_chars (info : SSHConnectionInfo) :
    ∀ c ∈ generateSSHConfigAlias info, isAlphaNumCh c = true ∨ c = '_' := by
  intro c hc
  unfold generateSSHConfigAlias at hc
  rcases List.mem_append.mp hc with h1 | h2
  · rcases List.mem_append.mp h1 with h3 | h4
    · fin_cases h3 <;> decide
    · exact aliasClean_chars _ c h4
  · rcases List.mem_cons.mp h2 with rfl | h5
    · exact Or.inr rfl
    · exact aliasClean_chars _ c h5

/-- The `Host` line of a safe alias contains no newline, no `#`,
and starts with `H`. -/
theorem hostLine_chars {al : JStr}
    (hal : ∀ c ∈ al, isAlphaNumCh c = true ∨ c = '_') :
    '\n' ∉ hostLine al ∧ '#' ∉ hostLine al ∧
      ∃ t, hostLine al = 'H' :: t := by
  refine ⟨?_, ?_, ⟨"ost ".data ++ al, rfl⟩⟩
  · intro hmem
    rcases List.mem_append.mp hmem with h1 | h2
    · exact absurd h1 (by decide)
    · rcases hal _ h2 with h3 | h3
      · exact absurd h3 (by decide)
      · exact absurd h3 (by decide)
  · intro hmem
    rcases List.mem_append.mp hmem with h1 | h2
    · exact absurd h1 (by decide)
    · rcases hal _ h2 with h3 | h3
      · exact absurd h3 (by decide)
      · exact absurd h3 (by decide)

/-- The removal pattern cannot match at the start of `P ++ S` when `P` is
free of the host line and `S` begins with a newline (or is empty). -/
theorem hl_not_prefix_append {al P S : JStr}
    (hnl : '\n' ∉ hostLine al)
    (hP : ¬ hostLine al <:+: P)
    (hS : S = [] ∨ ∃ S0, S = '\n' :: S0) :
    ¬ (hostLine al ++ ['\n']) <+: P ++ S := by
  intro h
  rcases prefix_append_cases h with h1 | ⟨q, hq, hqS⟩
  · have h2 : hostLine al <+: P :=
      List.IsPrefix.trans ⟨['\n'], rfl⟩ h1
    exact hP h2.isInfix
  · rcases eq_or_ne q [] with rfl | hqne
    · rw [List.append_nil] at hq
      refine hP ⟨[], ['\n'], ?_⟩
      rw [← hq]
      rfl
    · rcases hS with rfl | ⟨S0, rfl⟩
      · exact hqne (List.prefix_nil.mp hqS)
      · obtain ⟨qh, qt, rfl⟩ : ∃ qh qt, q = qh :: qt := by
          cases q with
          | nil => exact absurd rfl hqne
          | cons qh qt => exact ⟨qh, qt, rfl⟩
        obtain ⟨rfl, -⟩ := List.cons_prefix_cons.mp hqS
        rcases eq_or_ne qt [] with rfl | hqt
        · have h3 : hostLine al = P := List.append_cancel_right hq
          exact hP (h3 ▸ List.infix_refl _)
        · have h0 : (hostLine al).count '\n' = 0 := List.count_eq_zero.mpr hnl
          have hcount : qt.count '\n' = 0 := by
            have hc := congrArg (List.count '\n') hq
            simp only [List.count_append, List.count_cons] at hc
            simp only [h0] at hc
            simp at hc
            omega
          have hlast : qt.getLast? = some '\n' := by
            have hg := congrArg List.getLast? hq
            rw [List.getLast?_concat] at hg
            rw [show ('\n' :: qt : JStr) = ['\n'] ++ qt from rfl,
              List.getLast?_append_of_ne_nil _
                (by simp : (['\n'] ++ qt : JStr) ≠ []),
              List.getLast?_append_of_ne_nil _ hqt] at hg
            exact hg.symm
          have hmem : '\n' ∈ qt := List.mem_of_mem_getLast? hlast
          have hpos : 0 < qt.count '\n' := List.count_pos_iff.mpr hmem
          omega

/-- Scanning a host-line-free prefix emits it unchanged. -/
theorem removeStanzas_append {al : JStr} (hnl : '\n' ∉ hostLine al) :
    ∀ {P S : JStr}, ¬ hostLine al <:+: P →
      (S = [] ∨ ∃ S0, S = '\n' :: S0) →
      removeStanzas al (P ++ S) = P ++ removeStanzas al S := by
  intro P
  induction P with
  | nil => intro S _ _; rfl
  | cons c P ih =>
    intro S hP hS
    have hP2 : ¬ hostLine al <:+: P := fun h => hP (List.infix_cons h)
    have hstep : tryStanza al (c :: (P ++ S)) = none := by
      have hsm : ∀ X : JStr, ¬ (hostLine al ++ ['\n']) <+: X →
          stanzaMatch al X = none := by
        intro X hX
        unfold stanzaMatch
        rw [if_neg (fun hpre => hX (List.isPrefixOf_iff_prefix.mp hpre))]
      have hm1 : stanzaMatch al (c :: (P ++ S)) = none :=
        hsm _ (hl_not_prefix_append hnl hP hS)
      unfold tryStanza
      split
      · rename_i rest hrest
        injection hrest with hc hrest2
        have hm2 : stanzaMatch al rest = none := by
          rw [← hrest2]
          exact hsm _ (hl_not_prefix_append hnl hP2 hS)
        rw [hm2]
        exact hm1
      · exact hm1
    rw [List.cons_append, removeStanzas_cons_none hstep, ih hP2 hS]
    rfl

/-- `joinNL` over a cons with a non-empty tail. -/
theorem joinNL_cons (x : JStr) {L : List JStr} (h : L ≠ []) :
    joinNL (x :: L) = x ++ '\n' :: joinNL L := by
  cases L with
  | nil => exact absurd rfl h
  | cons y ys => rfl

/-- `[...lines, ''].join('\n')` is the block of newline-terminated lines. -/
theorem joinNL_unit : ∀ ls : List JStr, joinNL (ls ++ [[]]) = linesJoin ls := by
  intro ls
  induction ls with
  | nil => rfl
  | cons l rest ih =>
    rw [List.cons_append, joinNL_cons l (by simp), ih]
    rfl

/-- Take/drop of a newline-free chunk before an explicit newline. -/
theorem span_nl (X R : JStr) (hX : '\n' ∉ X) :
    (X ++ '\n' :: R).takeWhile (fun c => c ≠ '\n') = X ∧
    (X ++ '\n' :: R).dropWhile (fun c => c ≠ '\n') = '\n' :: R := by
  induction X with
  | nil => simp
  | cons x X ih =>
    have hx : x ≠ '\n' := fun he => hX (he ▸ List.mem_cons_self x X)
    have hX2 : '\n' ∉ X := fun hm => hX (List.mem_cons_of_mem x hm)
    obtain ⟨ih1, ih2⟩ := ih hX2
    constructor
    · rw [List.cons_append, List.takeWhile_cons, if_pos (by simp [hx]), ih1]
    · rw [List.cons_append, List.dropWhile_cons, if_pos (by simp [hx]), ih2]

/-- The greedy scanner consumes exactly a block of indented lines. -/
theorem indentedStar_linesJoin :
    ∀ (lines : List JStr),
      (∀ l ∈ lines, ∃ X, l = ' ' :: ' ' :: X ∧ X ≠ [] ∧ '\n' ∉ X) →
      ∀ {B : JStr}, indentedLineStep B = none →
      indentedStar (linesJoin lines ++ B) = B := by
  intro lines
  induction lines with
  | nil =>
    intro _ B hB
    show indentedStar ([] ++ B) = B
    rw [List.nil_append]
    exact indentedStar_none hB
  | cons l rest ih =>
    intro hlines B hB
    obtain ⟨X, rfl, hXne, hXnl⟩ := hlines l (List.mem_cons_self l rest)
    have hshape : linesJoin ((' ' :: ' ' :: X) :: rest) ++ B =
        ' ' :: ' ' :: (X ++ '\n' :: (linesJoin rest ++ B)) := by
      show ((' ' :: ' ' :: X) ++ '\n' :: linesJoin rest) ++ B = _
      simp
    rw [hshape]
    obtain ⟨htake, hdrop⟩ := span_nl X (linesJoin rest ++ B) hXnl
    have hstep : indentedLineStep
        (' ' :: ' ' :: (X ++ '\n' :: (linesJoin rest ++ B))) =
        some (linesJoin rest ++ B) := by
      show (if (List.takeWhile (fun c => decide (c ≠ '\n'))
            (X ++ '\n' :: (linesJoin rest ++ B))).isEmpty = true then none
          else
            match List.dropWhile (fun c => decide (c ≠ '\n'))
                (X ++ '\n' :: (linesJoin rest ++ B)) with
            | '\n' :: r => some r
            | _ => none) = some (linesJoin rest ++ B)
      rw [htake, hdrop]
      rw [if_neg (by simp [List.isEmpty_iff, hXne])]
      rfl
    rw [indentedStar_some hstep]
    exact ih (fun t ht => hlines t (List.mem_cons_of_mem _ ht)) hB

/-- The removal pattern matches exactly the inserted stanza. -/
theorem tryStanza_entry (al : JStr) (lines : List JStr)
    (hlines : ∀ l ∈ lines, ∃ X, l = ' ' :: ' ' :: X ∧ X ≠ [] ∧ '\n' ∉ X)
    {B : JStr} (hB : indentedLineStep B = none) :
    tryStanza al ('\n' :: (hostLine al ++ '\n' :: (linesJoin lines ++ B))) =
      some B := by
  have hsm : stanzaMatch al (hostLine al ++ '\n' :: (linesJoin lines ++ B)) =
      some B := by
    unfold stanzaMatch
    have hform : hostLine al ++ '\n' :: (linesJoin lines ++ B) =
        (hostLine al ++ ['\n']) ++ (linesJoin lines ++ B) := by simp
    rw [if_pos (by
      rw [List.isPrefixOf_iff_prefix, hform]
      exact List.prefix_append _ _)]
    rw [hform, List.drop_left]
    rw [indentedStar_linesJoin lines hlines hB]
  show (match stanzaMatch al (hostLine al ++ '\n' :: (linesJoin lines ++ B)) with
    | some r => some r
    | none => stanzaMatch al ('\n' ::
        (hostLine al ++ '\n' :: (linesJoin lines ++ B)))) = some B
  rw [hsm]

/-- Lines of a block followed by a remainder. -/
theorem splitOnChar_linesJoin :
    ∀ (lines : List JStr), (∀ l ∈ lines, '\n' ∉ l) → ∀ B : JStr,
      splitOnChar '\n' (linesJoin lines ++ B) =
        lines ++ splitOnChar '\n' B := by
  intro lines
  induction lines with
  | nil => intro _ B; rfl
  | cons l rest ih =>
    intro hlines B
    have hshape : linesJoin (l :: rest) ++ B = l ++ '\n' :: (linesJoin rest ++ B) := by
      show (l ++ '\n' :: linesJoin rest) ++ B = _
      simp
    rw [hshape, splitOnChar_sep_append,
      splitOnChar_eq_single (hlines l (List.mem_cons_self l rest)),
      ih (fun t ht => hlines t (List.mem_cons_of_mem _ ht)) B]
    rfl

/-- `trimEnd` keeps a prefix of the string. -/
theorem jsTrimEnd_leading (s : JStr) : jsTrimEnd s <+: s := by
  unfold jsTrimEnd
  have h1 : s.reverse.dropWhile isJsSpace <:+ s.reverse :=
    List.dropWhile_suffix _
  have h2 := h1.reverse
  rw [List.reverse_reverse] at h2
  exact h2

/-- A suffix of a concatenation is a suffix of the second part or extends
back into the first. -/
theorem suffix_append_cases {p a b : JStr} (h : p <:+ a ++ b) :
    p <:+ b ∨ ∃ q, p = q ++ b ∧ q <:+ a := by
  have h2 : p.reverse <+: b.reverse ++ a.reverse := by
    have h3 := List.reverse_prefix.mpr h
    rw [List.reverse_append] at h3
    exact h3
  rcases prefix_append_cases h2 with h3 | ⟨q, hq, hqa⟩
  · left
    exact List.reverse_prefix.mp h3
  · right
    refine ⟨q.reverse, ?_, ?_⟩
    · have h4 := congrArg List.reverse hq
      simpa using h4
    · have h5 : q.reverse.reverse <+: a.reverse := by
        rw [List.reverse_reverse]
        exact hqa
      exact List.reverse_prefix.mp h5

/-- A pattern avoiding both parts and every boundary crossing avoids the
concatenation. -/
theorem not_infix_append {p a b : JStr} (ha : ¬ p <:+: a) (hb : ¬ p <:+: b)
    (hcross : ∀ p1 p2, p = p1 ++ p2 → p1 ≠ [] → p2 ≠ [] →
      p1 <:+ a → p2 <+: b → False) :
    ¬ p <:+: a ++ b := by
  intro h
  rcases infix_append_cases h with h1 | h2 | ⟨p1, p2, hp, h3, h4, h5, h6⟩
  · exact ha h1
  · exact hb h2
  · exact hcross p1 p2 hp h3 h4 h5 h6

/-- `GetSubstitution` is the identity on a replacement free of `$`. -/
theorem getSubst_id (matched before after : JStr) :
    ∀ r : JStr, '$' ∉ r → getSubst matched before after r = r := by
  intro r
  induction r with
  | nil => intro _; rfl
  | cons c rest ih =>
    intro h
    have hc : c ≠ '$' := fun he => h (he ▸ List.mem_cons_self c rest)
    cases rest with
    | nil => rfl
    | cons c2 rest2 =>
      rw [getSubst, if_neg hc, ih (fun hm => h (List.mem_cons_of_mem c hm))]

/-- A character other than the newline separator stays out of a block of
lines avoiding it. -/
theorem linesJoin_not_mem {c : Char} (hc : c ≠ '\n') :
    ∀ ls : List JStr, (∀ l ∈ ls, c ∉ l) → c ∉ linesJoin ls := by
  intro ls
  induction ls with
  | nil =>
    intro _ h
    exact absurd h (List.not_mem_nil c)
  | cons l rest ih =>
    intro hall hm
    have hm2 : c ∈ l ++ '\n' :: linesJoin rest := hm
    rcases List.mem_append.mp hm2 with h1 | h1
    · exact hall l (List.mem_cons_self _ _) h1
    · rcases List.mem_cons.mp h1 with h2 | h2
      · exact hc h2
      · exact ih (fun t ht => hall t (List.mem_cons_of_mem _ ht)) h2

/-- The rendered replacement string of the insertion stage contains no
`$` when the stanza body lines contain none. -/
theorem entry_no_dollar (al : JStr) (tail : List JStr)
    (hal : ∀ c ∈ al, isAlphaNumCh c = true ∨ c = '_')
    (htds : ∀ l ∈ tail, '$' ∉ l) :
    '$' ∉ sshMarker ++ '\n' :: linesJoin (hostLine al :: tail) := by
  intro hm
  rcases List.mem_append.mp hm with h1 | h1
  · exact absurd h1 (by decide)
  rcases List.mem_cons.mp h1 with h2 | h2
  · exact absurd h2 (by decide)
  have hhl : '$' ∉ hostLine al := by
    intro hm2
    rcases List.mem_append.mp hm2 with h3 | h3
    · exact absurd h3 (by decide)
    · rcases hal _ h3 with h4 | h4
      · exact absurd h4 (by decide)
      · exact absurd h4 (by decide)
  refine linesJoin_not_mem (by decide) (hostLine al :: tail) ?_ h2
  intro l hl
  rcases List.mem_cons.mp hl with rfl | hl2
  · exact hhl
  · exact htds l hl2

/-- The substituting replacement fires at an occurrence preceded by
occurrence-free text (accumulator form). -/
theorem replaceFirstSubstAux_at (pat repl : JStr) (hpat : pat ≠ []) :
    ∀ C acc B : JStr,
      (∀ C2, C2 <:+ C → C2 ≠ [] → ¬ pat <+: C2 ++ (pat ++ B)) →
      replaceFirstSubstAux pat repl acc (C ++ (pat ++ B)) =
        acc.reverse ++ (C ++ (getSubst pat (acc.reverse ++ C) B repl ++ B)) := by
  intro C
  induction C with
  | nil =>
    intro acc B _
    obtain ⟨p, pt, rfl⟩ : ∃ p pt, pat = p :: pt := by
      cases pat with
      | nil => exact absurd rfl hpat
      | cons p pt => exact ⟨p, pt, rfl⟩
    show (if (p :: pt).isPrefixOf (p :: (pt ++ B)) then
        acc.reverse ++
          getSubst (p :: pt) acc.reverse ((p :: (pt ++ B)).drop (p :: pt).length) repl
          ++ (p :: (pt ++ B)).drop (p :: pt).length
      else replaceFirstSubstAux (p :: pt) repl (p :: acc) (pt ++ B)) =
      acc.reverse ++ ([] ++ (getSubst (p :: pt) (acc.reverse ++ []) B repl ++ B))
    rw [if_pos (by
      rw [List.isPrefixOf_iff_prefix]
      exact List.prefix_append (p :: pt) B)]
    rw [show (p :: (pt ++ B) : JStr) = (p :: pt) ++ B from rfl, List.drop_left]
    simp
  | cons a C ih =>
    intro acc B hocc
    have hnp := hocc (a :: C) (List.suffix_refl _) (by simp)
    rw [List.cons_append] at hnp
    show (if pat.isPrefixOf (a :: (C ++ (pat ++ B))) then
        acc.reverse ++
          getSubst pat acc.reverse ((a :: (C ++ (pat ++ B))).drop pat.length) repl
          ++ (a :: (C ++ (pat ++ B))).drop pat.length
      else replaceFirstSubstAux pat repl (a :: acc) (C ++ (pat ++ B))) =
      acc.reverse ++ ((a :: C) ++ (getSubst pat (acc.reverse ++ (a :: C)) B repl ++ B))
    rw [if_neg (fun hpre => hnp (List.isPrefixOf_iff_prefix.mp hpre))]
    rw [ih (a :: acc) B (fun C2 h1 h2 => hocc C2 (h1.trans (List.suffix_cons a C)) h2)]
    simp

/-- The substituting replacement fires at an occurrence preceded by
occurrence-free text. -/
theorem replaceFirstSubst_at (pat repl : JStr) (hpat : pat ≠ []) (C B : JStr)
    (hocc : ∀ C2, C2 <:+ C → C2 ≠ [] → ¬ pat <+: C2 ++ (pat ++ B)) :
    replaceFirstSubst pat repl (C ++ (pat ++ B)) =
      C ++ (getSubst pat C B repl ++ B) := by
  have h := replaceFirstSubstAux_at pat repl hpat C [] B hocc
  simpa using h

/-- Character facts about the managed-region marker. -/
theorem sshMarker_facts :
    sshMarker ≠ [] ∧ '\n' ∉ sshMarker ∧
      (∃ t, sshMarker = '#' :: t) ∧
      containsSub "Host ".data sshMarker = false :=
  ⟨by decide, by decide,
    ⟨(" === SSHarbor Managed Entries ===".data : JStr), rfl⟩, by decide⟩

/-- The host line of a safe alias is not an infix of host-line-free text
followed by the marker. -/
theorem hl_not_infix_marker_append {al C : JStr}
    (hal : ∀ c ∈ al, isAlphaNumCh c = true ∨ c = '_')
    (hC : ¬ hostLine al <:+: C) :
    ¬ hostLine al <:+: C ++ sshMarker := by
  obtain ⟨hnl, hsh, halt⟩ := hostLine_chars hal
  have hhm : ¬ ("Host ".data : JStr) <:+: sshMarker := by
    intro h
    have h2 := (containsSub_iff "Host ".data sshMarker).mpr h
    rw [sshMarker_facts.2.2.2] at h2
    exact Bool.noConfusion h2
  refine not_infix_append hC ?_ ?_
  · intro h
    exact hhm ((List.prefix_append "Host ".data al).isInfix.trans h)
  · intro p1 p2 hp hne1 hne2 hsuf hpre
    obtain ⟨t, ht⟩ := sshMarker_facts.2.2.1
    obtain ⟨x, xt, rfl⟩ : ∃ x xt, p2 = x :: xt := by
      cases p2 with
      | nil => exact absurd rfl hne2
      | cons x xt => exact ⟨x, xt, rfl⟩
    rw [ht] at hpre
    obtain ⟨hx, -⟩ := List.cons_prefix_cons.mp hpre
    refine hsh ?_
    rw [hp, ← hx]
    exact List.mem_append_right p1 (List.mem_cons_self _ _)

/-- Core upsert analysis: on a config of the shape
`C ++ marker ++ newline ++ stanza ++ B2` — the stanza being the alias host
line followed by the indented body — the transformation is the identity
and the alias host line occurs on exactly one line. -/
theorem upsert_block (al : JStr) (tail : List JStr) (C B2 : JStr)
    (hal : ∀ c ∈ al, isAlphaNumCh c = true ∨ c = '_')
    (htail : ∀ l ∈ tail, ∃ X, l = ' ' :: ' ' :: X ∧ X ≠ [] ∧ '\n' ∉ X)
    (htds : ∀ l ∈ tail, '$' ∉ l)
    (hC : ¬ hostLine al <:+: C)
    (hocc : ∀ C2, C2 <:+ C → C2 ≠ [] → ∀ R : JStr, ¬ sshMarker <+: C2 ++ R)
    (hB : B2 = [] ∨ ∃ B3, B2 = '\n' :: B3)
    (hBhl : ¬ hostLine al <:+: B2) :
    upsertConfig al (linesJoin (hostLine al :: tail))
        (C ++ (sshMarker ++ '\n' :: linesJoin (hostLine al :: tail)) ++ B2) =
      C ++ (sshMarker ++ '\n' :: linesJoin (hostLine al :: tail)) ++ B2 ∧
    (splitOnChar '\n'
        (C ++ (sshMarker ++ '\n' :: linesJoin (hostLine al :: tail)) ++ B2)).count
      (hostLine al) = 1 := by
  obtain ⟨hnl, hsh, halt⟩ := hostLine_chars hal
  obtain ⟨alt, hH⟩ := halt
  have hE : linesJoin (hostLine al :: tail) =
      hostLine al ++ '\n' :: linesJoin tail := rfl
  have htailnl : ∀ l ∈ tail, '\n' ∉ l := by
    intro l hl hm
    obtain ⟨X, rfl, hXne, hXnl⟩ := htail l hl
    rcases List.mem_cons.mp hm with h1 | hm2
    · exact absurd h1 (by decide)
    rcases List.mem_cons.mp hm2 with h1 | hm3
    · exact absurd h1 (by decide)
    exact hXnl hm3
  have hU : C ++ (sshMarker ++ '\n' :: linesJoin (hostLine al :: tail)) ++ B2 =
      (C ++ sshMarker) ++ '\n' :: (hostLine al ++ '\n' :: (linesJoin tail ++ B2)) := by
    rw [hE]
    simp
  have hPmk : ¬ hostLine al <:+: C ++ sshMarker :=
    hl_not_infix_marker_append hal hC
  have hsplitU : splitOnChar '\n'
      (C ++ (sshMarker ++ '\n' :: linesJoin (hostLine al :: tail)) ++ B2) =
      splitOnChar '\n' (C ++ sshMarker) ++
        ([hostLine al] ++ (tail ++ splitOnChar '\n' B2)) := by
    rw [hU, splitOnChar_sep_append, splitOnChar_sep_append,
      splitOnChar_eq_single hnl, splitOnChar_linesJoin tail htailnl B2]
  have hmemU : hostLine al ∈ splitOnChar '\n'
      (C ++ (sshMarker ++ '\n' :: linesJoin (hostLine al :: tail)) ++ B2) := by
    rw [hsplitU]
    exact List.mem_append_right _ (List.mem_append_left _ (List.mem_cons_self _ _))
  have hcontU : (splitOnChar '\n'
      (C ++ (sshMarker ++ '\n' :: linesJoin (hostLine al :: tail)) ++ B2)).contains
        (hostLine al) = true := by simpa using hmemU
  have hBstep : indentedLineStep B2 = none := by
    rcases hB with rfl | ⟨B3, rfl⟩
    · rfl
    · rfl
  have hremS : removeStanzas al
      ('\n' :: (hostLine al ++ '\n' :: (linesJoin tail ++ B2))) = B2 := by
    rw [removeStanzas_cons_some (tryStanza_entry al tail htail hBstep)]
    have h2 : removeStanzas al (B2 ++ []) = B2 ++ removeStanzas al [] :=
      removeStanzas_append hnl hBhl (Or.inl rfl)
    rw [List.append_nil, removeStanzas_nil, List.append_nil] at h2
    exact h2
  have hremove : removeOldStanza al
      (C ++ (sshMarker ++ '\n' :: linesJoin (hostLine al :: tail)) ++ B2) =
      (C ++ sshMarker) ++ B2 := by
    rw [removeOldStanza, if_pos hcontU]
    have hra : removeStanzas al ((C ++ sshMarker) ++
        '\n' :: (hostLine al ++ '\n' :: (linesJoin tail ++ B2))) =
        (C ++ sshMarker) ++
          removeStanzas al ('\n' :: (hostLine al ++ '\n' :: (linesJoin tail ++ B2))) :=
      removeStanzas_append hnl hPmk (Or.inr ⟨_, rfl⟩)
    rw [hU, hra, hremS]
  have hinsert : insertEntry (linesJoin (hostLine al :: tail))
      ((C ++ sshMarker) ++ B2) =
      C ++ (sshMarker ++ '\n' :: linesJoin (hostLine al :: tail)) ++ B2 := by
    have hcont2 : containsSub sshMarker ((C ++ sshMarker) ++ B2) = true :=
      (containsSub_iff _ _).mpr ⟨C, B2, rfl⟩
    rw [insertEntry, if_pos hcont2]
    have h3 : (C ++ sshMarker) ++ B2 = C ++ (sshMarker ++ B2) :=
      List.append_assoc _ _ _
    rw [h3]
    have hrf : replaceFirstSubst sshMarker
        (sshMarker ++ '\n' :: linesJoin (hostLine al :: tail))
        (C ++ (sshMarker ++ B2)) =
        C ++ ((sshMarker ++ '\n' :: linesJoin (hostLine al :: tail)) ++ B2) := by
      have h4 := replaceFirstSubst_at sshMarker
        (sshMarker ++ '\n' :: linesJoin (hostLine al :: tail))
        sshMarker_facts.1 C B2
        (fun C2 h1 h2 => hocc C2 h1 h2 (sshMarker ++ B2))
      rw [getSubst_id _ _ _ _ (entry_no_dollar al tail hal htds)] at h4
      exact h4
    rw [hrf]
    exact (List.append_assoc _ _ _).symm
  constructor
  · rw [upsertConfig, hremove, hinsert]
  · rw [hsplitU, List.count_append, List.count_append]
    have h1 : (splitOnChar '\n' (C ++ sshMarker)).count (hostLine al) = 0 :=
      List.count_eq_zero.mpr (fun hm => hPmk (mem_splitOnChar_sub hm))
    have h2 : ([hostLine al] : List JStr).count (hostLine al) = 1 := by simp
    have h3 : (tail ++ splitOnChar '\n' B2).count (hostLine al) = 0 := by
      rw [List.count_append]
      have h4 : tail.count (hostLine al) = 0 := by
        refine List.count_eq_zero.mpr ?_
        intro hm
        obtain ⟨X, hX, -, -⟩ := htail _ hm
        rw [hH] at hX
        injection hX with h5 h6
        exact absurd h5 (by decide)
      have h5 : (splitOnChar '\n' B2).count (hostLine al) = 0 :=
        List.count_eq_zero.mpr (fun hm => hBhl (mem_splitOnChar_sub hm))
      rw [h4, h5]
    rw [h1, h2, h3]

/-- Upsert is idempotent and yields exactly one alias host line, on any
config lacking that host line whose marker is absent or well-placed. -/
theorem upsert_master (al : JStr) (tail : List JStr) (T : JStr)
    (hal : ∀ c ∈ al, isAlphaNumCh c = true ∨ c = '_')
    (htail : ∀ l ∈ tail, ∃ X, l = ' ' :: ' ' :: X ∧ X ≠ [] ∧ '\n' ∉ X)
    (htds : ∀ l ∈ tail, '$' ∉ l)
    (hT : ¬ hostLine al <:+: T)
    (hM : ¬ sshMarker <:+: T ∨
      ∃ A B, T = A ++ (sshMarker ++ B) ∧ '#' ∉ A ∧
        (B = [] ∨ ∃ B3, B = '\n' :: B3)) :
    upsertConfig al (linesJoin (hostLine al :: tail))
        (upsertConfig al (linesJoin (hostLine al :: tail)) T) =
      upsertConfig al (linesJoin (hostLine al :: tail)) T ∧
    (splitOnChar '\n'
        (upsertConfig al (linesJoin (hostLine al :: tail)) T)).count
      (hostLine al) = 1 := by
  obtain ⟨hnl, hsh, halt⟩ := hostLine_chars hal
  obtain ⟨alt, hH⟩ := halt
  have hro : removeOldStanza al T = T := by
    have hm : hostLine al ∉ splitOnChar '\n' T :=
      fun hm => hT (mem_splitOnChar_sub hm)
    rw [removeOldStanza, if_neg (by simpa using hm)]
  rcases hM with hM1 | ⟨A, B, hTeq, hAsh, hBshape⟩
  · have hcontT : ¬ containsSub sshMarker T = true :=
      fun h => hM1 ((containsSub_iff _ _).mp h)
    have hU1 : upsertConfig al (linesJoin (hostLine al :: tail)) T =
        (jsTrimEnd T ++ ['\n', '\n']) ++
          (sshMarker ++ '\n' :: linesJoin (hostLine al :: tail)) ++ [] := by
      rw [upsertConfig, hro, insertEntry, if_neg hcontT]
      simp
    have hCf : ¬ hostLine al <:+: jsTrimEnd T ++ ['\n', '\n'] := by
      refine not_infix_append ?_ ?_ ?_
      · intro h
        exact hT (h.trans (jsTrimEnd_leading T).isInfix)
      · intro h
        have h2 : 'H' ∈ (['\n', '\n'] : JStr) := by
          apply h.subset
          rw [hH]
          exact List.mem_cons_self _ _
        exact absurd h2 (by decide)
      · intro p1 p2 hp hne1 hne2 hsuf hpre
        obtain ⟨x, xt, rfl⟩ : ∃ x xt, p2 = x :: xt := by
          cases p2 with
          | nil => exact absurd rfl hne2
          | cons x xt => exact ⟨x, xt, rfl⟩
        obtain ⟨hx, -⟩ := List.cons_prefix_cons.mp hpre
        refine hnl ?_
        rw [hp, hx]
        exact List.mem_append_right p1 (List.mem_cons_self _ _)
    have hoccf : ∀ C2, C2 <:+ jsTrimEnd T ++ ['\n', '\n'] → C2 ≠ [] →
        ∀ R : JStr, ¬ sshMarker <+: C2 ++ R := by
      intro C2 hsuf hne R hpre
      rcases suffix_append_cases hsuf with hs1 | ⟨q, rfl, hq⟩
      · obtain ⟨x, xt, rfl⟩ : ∃ x xt, C2 = x :: xt := by
          cases C2 with
          | nil => exact absurd rfl hne
          | cons x xt => exact ⟨x, xt, rfl⟩
        have hx : x = '\n' := by
          have hx2 : x ∈ (['\n', '\n'] : JStr) :=
            hs1.subset (List.mem_cons_self _ _)
          rcases List.mem_cons.mp hx2 with h | h
          · exact h
          · simpa using h
        obtain ⟨t, ht⟩ := sshMarker_facts.2.2.1
        rw [ht, List.cons_append] at hpre
        obtain ⟨hhx, -⟩ := List.cons_prefix_cons.mp hpre
        rw [hx] at hhx
        exact absurd hhx (by decide)
      · rw [List.append_assoc] at hpre
        rcases prefix_append_cases hpre with hp1 | ⟨r, hmr, hrpre⟩
        · exact hM1 ((hp1.isInfix.trans hq.isInfix).trans
            (jsTrimEnd_leading T).isInfix)
        · rcases eq_or_ne r [] with rfl | hrne
          · rw [List.append_nil] at hmr
            subst hmr
            exact hM1 (hq.isInfix.trans (jsTrimEnd_leading T).isInfix)
          · obtain ⟨rh, rt, rfl⟩ : ∃ rh rt, r = rh :: rt := by
              cases r with
              | nil => exact absurd rfl hrne
              | cons rh rt => exact ⟨rh, rt, rfl⟩
            rw [List.cons_append] at hrpre
            obtain ⟨hrh, -⟩ := List.cons_prefix_cons.mp hrpre
            refine sshMarker_facts.2.1 ?_
            rw [hmr, hrh]
            exact List.mem_append_right q (List.mem_cons_self _ _)
    have hblock := upsert_block al tail (jsTrimEnd T ++ ['\n', '\n']) []
      hal htail htds hCf hoccf (Or.inl rfl)
      (by
        intro h
        have h2 := List.eq_nil_of_infix_nil h
        rw [hH] at h2
        exact List.noConfusion h2)
    rw [hU1]
    exact hblock
  · have hoccA : ∀ C2, C2 <:+ A → C2 ≠ [] →
        ∀ R : JStr, ¬ sshMarker <+: C2 ++ R := by
      intro C2 hsuf hne R hpre
      obtain ⟨x, xt, rfl⟩ : ∃ x xt, C2 = x :: xt := by
        cases C2 with
        | nil => exact absurd rfl hne
        | cons x xt => exact ⟨x, xt, rfl⟩
      obtain ⟨t, ht⟩ := sshMarker_facts.2.2.1
      rw [ht, List.cons_append] at hpre
      obtain ⟨hx, -⟩ := List.cons_prefix_cons.mp hpre
      refine hAsh ?_
      rw [hx]
      exact hsuf.subset (List.mem_cons_self x xt)
    have hAhl : ¬ hostLine al <:+: A := fun h =>
      hT (h.trans ⟨[], sshMarker ++ B, by rw [hTeq]; simp⟩)
    have hBhl : ¬ hostLine al <:+: B := fun h =>
      hT (h.trans ⟨A ++ sshMarker, [], by rw [hTeq]; simp⟩)
    have hU1 : upsertConfig al (linesJoin (hostLine al :: tail)) T =
        A ++ (sshMarker ++ '\n' :: linesJoin (hostLine al :: tail)) ++ B := by
      rw [upsertConfig, hro, insertEntry, if_pos ((containsSub_iff _ _).mpr
        ⟨A, B, by rw [hTeq]; exact List.append_assoc A sshMarker B⟩)]
      rw [hTeq]
      have hrf : replaceFirstSubst sshMarker
          (sshMarker ++ '\n' :: linesJoin (hostLine al :: tail))
          (A ++ (sshMarker ++ B)) =
          A ++ ((sshMarker ++ '\n' :: linesJoin (hostLine al :: tail)) ++ B) := by
        have h4 := replaceFirstSubst_at sshMarker
          (sshMarker ++ '\n' :: linesJoin (hostLine al :: tail))
          sshMarker_facts.1 A B
          (fun C2 h1 h2 => hoccA C2 h1 h2 (sshMarker ++ B))
        rw [getSubst_id _ _ _ _ (entry_no_dollar al tail hal htds)] at h4
        exact h4
      rw [hrf]
      exact (List.append_assoc _ _ _).symm
    have hblock := upsert_block al tail A B hal htail htds hAhl hoccA hBshape hBhl
    rw [hU1]
    exact hblock

/-- C2 counterexample: on the pre-existing config `Host SSHarbor_F_V`
(the alias host line without a trailing newline) the transformation of
`ensureSSHConfigEntry` is not idempotent, and its single-pass output
contains the line `Host SSHarbor_F_V` twice. -/
theorem C2_counterexample :
    ensureSSHConfigText c2Info
        (ensureSSHConfigText c2Info "Host SSHarbor_F_V".data) ≠
      ensureSSHConfigText c2Info "Host SSHarbor_F_V".data ∧
    (splitOnChar '\n' (ensureSSHConfigText c2Info "Host SSHarbor_F_V".data)).count
      (hostLine (generateSSHConfigAlias c2Info)) = 2 := by
  constructor
  · decide
  · decide

/-- C2 (amended): when the connection fields contain no newline and no
dollar sign (the replacement string of the insertion undergoes ECMAScript
`$`-substitution), the existing config contains no substring
`Host <alias>` for the generated alias, and the managed-entries marker is
either absent or occurs after `#`-free text and at a line start boundary
(followed by a newline or the end), the transformation of
`ensureSSHConfigEntry` is idempotent — applying it twice equals applying
it once byte for byte — and its output contains exactly one line
`Host <alias>`: the old stanza (host line plus the immediately following
two-space-indented lines) is removed and the new stanza is inserted
directly after the marker, the marker being appended to the right-trimmed
text when absent. -/
theorem C2_upsert_amended (info : SSHConnectionInfo) (T : JStr)
    (hh : '\n' ∉ info.host) (hu : '\n' ∉ info.user)
    (hi : ∀ f, info.identityFile = some f → '\n' ∉ f)
    (hhd : '$' ∉ info.host) (hud : '$' ∉ info.user)
    (hif : ∀ f, info.identityFile = some f → '$' ∉ f)
    (hT : ¬ hostLine (generateSSHConfigAlias info) <:+: T)
    (hM : ¬ sshMarker <:+: T ∨
      ∃ A B, T = A ++ (sshMarker ++ B) ∧ '#' ∉ A ∧
        (B = [] ∨ ∃ B3, B = '\n' :: B3)) :
    ensureSSHConfigText info (ensureSSHConfigText info T) =
      ensureSSHConfigText info T ∧
    (splitOnChar '\n' (ensureSSHConfigText info T)).count
      (hostLine (generateSSHConfigAlias info)) = 1 := by
  have htailshape : ∀ l ∈ (entryLines info).tail,
      ∃ X, l = ' ' :: ' ' :: X ∧ X ≠ [] ∧ '\n' ∉ X := by
    intro l hl
    rcases List.mem_cons.mp hl with rfl | hl3
    · refine ⟨"HostName ".data ++ info.host, rfl, ?_, ?_⟩
      · intro hx
        exact absurd (List.append_eq_nil.mp hx).1 (by decide)
      · intro hm
        rcases List.mem_append.mp hm with h1 | h1
        · exact absurd h1 (by decide)
        · exact hh h1
    rcases List.mem_cons.mp hl3 with rfl | hl4
    · refine ⟨"User ".data ++ info.user, rfl, ?_, ?_⟩
      · intro hx
        exact absurd (List.append_eq_nil.mp hx).1 (by decide)
      · intro hm
        rcases List.mem_append.mp hm with h1 | h1
        · exact absurd h1 (by decide)
        · exact hu h1
    rcases List.mem_append.mp hl4 with h5 | h6
    · by_cases hp : info.port ≠ 22
      · rw [if_pos hp] at h5
        have h7 : l = "  Port ".data ++ natToChars info.port :=
          List.mem_singleton.mp h5
        subst h7
        refine ⟨"Port ".data ++ natToChars info.port, rfl, ?_, ?_⟩
        · intro hx
          exact absurd (List.append_eq_nil.mp hx).1 (by decide)
        · intro hm
          rcases List.mem_append.mp hm with h1 | h1
          · exact absurd h1 (by decide)
          · have hall := (natToChars_spec info.port).1
            have hd := List.all_eq_true.mp hall '\n' h1
            exact absurd hd (by decide)
      · rw [if_neg hp] at h5
        simp at h5
    · cases hid : info.identityFile with
      | none =>
        rw [hid] at h6
        have h7 : l ∈ ([] : List JStr) := h6
        simp at h7
      | some f =>
        rw [hid] at h6
        have h7 : l ∈ (if f.isEmpty = true then ([] : List JStr)
            else ["  IdentityFile ".data ++ f]) := h6
        cases f with
        | nil => simp at h7
        | cons c ft =>
          rw [if_neg (by simp)] at h7
          have h8 : l = "  IdentityFile ".data ++ (c :: ft) :=
            List.mem_singleton.mp h7
          subst h8
          refine ⟨"IdentityFile ".data ++ (c :: ft), rfl, ?_, ?_⟩
          · intro hx
            exact absurd (List.append_eq_nil.mp hx).1 (by decide)
          · intro hm
            rcases List.mem_append.mp hm with h1 | h1
            · exact absurd h1 (by decide)
            · exact hi (c :: ft) hid h1
  have htaildollar : ∀ l ∈ (entryLines info).tail, '$' ∉ l := by
    intro l hl
    rcases List.mem_cons.mp hl with rfl | hl3
    · intro hm
      rcases List.mem_append.mp hm with h1 | h1
      · exact absurd h1 (by decide)
      · exact hhd h1
    rcases List.mem_cons.mp hl3 with rfl | hl4
    · intro hm
      rcases List.mem_append.mp hm with h1 | h1
      · exact absurd h1 (by decide)
      · exact hud h1
    rcases List.mem_append.mp hl4 with h5 | h6
    · by_cases hp : info.port ≠ 22
      · rw [if_pos hp] at h5
        have h7 : l = "  Port ".data ++ natToChars info.port :=
          List.mem_singleton.mp h5
        subst h7
        intro hm
        rcases List.mem_append.mp hm with h1 | h1
        · exact absurd h1 (by decide)
        · have hall := (natToChars_spec info.port).1
          have hd := List.all_eq_true.mp hall '$' h1
          exact absurd hd (by decide)
      · rw [if_neg hp] at h5
        simp at h5
    · cases hid : info.identityFile with
      | none =>
        rw [hid] at h6
        have h7 : l ∈ ([] : List JStr) := h6
        simp at h7
      | some f =>
        rw [hid] at h6
        have h7 : l ∈ (if f.isEmpty = true then ([] : List JStr)
            else ["  IdentityFile ".data ++ f]) := h6
        cases f with
        | nil => simp at h7
        | cons c ft =>
          rw [if_neg (by simp)] at h7
          have h8 : l = "  IdentityFile ".data ++ (c :: ft) :=
            List.mem_singleton.mp h7
          subst h8
          intro hm
          rcases List.mem_append.mp hm with h1 | h1
          · exact absurd h1 (by decide)
          · exact hif (c :: ft) hid h1
  have hentry : newEntryText info =
      linesJoin (hostLine (generateSSHConfigAlias info) :: (entryLines info).tail) := by
    rw [newEntryText, joinNL_unit]
    rfl
  have he : ∀ X, ensureSSHConfigText info X =
      upsertConfig (generateSSHConfigAlias info)
        (linesJoin (hostLine (generateSSHConfigAlias info) ::
          (entryLines info).tail)) X := by
    intro X
    rw [ensureSSHConfigText, hentry]
  simp only [he]
  exact upsert_master (generateSSHConfigAlias info) (entryLines info).tail T
    (generateSSHConfigAlias_chars info) htailshape htaildollar hT hM

/-- Witness for C2 (amended) at the concrete connection and the empty
existing config. -/
theorem C2_upsert_amended_witness :
    ('\n' ∉ c2Info.host) ∧ ('\n' ∉ c2Info.user) ∧
    ('$' ∉ c2Info.host) ∧ ('$' ∉ c2Info.user) ∧
    (¬ hostLine (generateSSHConfigAlias c2Info) <:+: ([] : JStr)) ∧
    (¬ sshMarker <:+: ([] : JStr)) ∧
    (ensureSSHConfigText c2Info (ensureSSHConfigText c2Info []) =
        ensureSSHConfigText c2Info [] ∧
      (splitOnChar '\n' (ensureSSHConfigText c2Info [])).count
        (hostLine (generateSSHConfigAlias c2Info)) = 1) :=
  ⟨by decide, by decide, by decide, by decide, by decide, by decide,
    C2_upsert_amended c2Info [] (by decide) (by decide)
      (fun f h => Option.noConfusion h) (by decide) (by decide)
      (fun f h => Option.noConfusion h) (by decide) (Or.inl (by decide))⟩

end SSHarbor
